import Mathlib

/-!
# Verification of the FCI-G time-indexing and history-assembly engine

Shallow embedding of `src/python/utility_functions.py` and
`src/python/calculate_fci.py`: the calendar arithmetic (`datetime`,
`dateutil.relativedelta`, `pandas` offsets), the predecessor search and
anchor-date computation (`threemonthdate`), the end-of-month test
(`check_EndOfM`), the lag-pointer cache builder (`generatelists`), the
history assembler (`history`), the weighted decomposition
(`calculate_fci_for_row` and the aggregation in `main`), and the input
normalization (`prepare_inputs`).

Dates are triples of naturals; machine reals are modelled as `ℚ`.
Fallible code (pandas `IndexError` / `KeyError` / `int(NaN)`) returns
`Option`.  The builder's `while` loop is modelled with explicit fuel.
-/

namespace FCIG

/-! ## Calendar dates

`datetime.date`: year, month (1..12), day (1-based).  The Python code
compares dates chronologically; for calendar-valid dates the chronological
order coincides with the lexicographic order on `(y, m, d)`, which we
realize through the strictly monotone `Date.key`. -/

structure Date where
  y : Nat
  m : Nat
  d : Nat
deriving DecidableEq, Repr

/-- Gregorian leap-year rule, as in Python's `calendar.isleap`. -/
def isLeap (y : Nat) : Bool :=
  (y % 4 == 0 && y % 100 != 0) || y % 400 == 0

/-- Number of days of month `m` of year `y`. -/
def daysInMonth (y m : Nat) : Nat :=
  if m == 2 then (if isLeap y then 29 else 28)
  else if m == 4 || m == 6 || m == 9 || m == 11 then 30
  else 31

/-- Calendar validity of a date triple. -/
def Date.Valid (a : Date) : Prop :=
  1 ≤ a.y ∧ 1 ≤ a.m ∧ a.m ≤ 12 ∧ 1 ≤ a.d ∧ a.d ≤ daysInMonth a.y a.m

instance (a : Date) : Decidable a.Valid := by
  unfold Date.Valid; infer_instance

/-- Order key: strictly monotone in the lexicographic (chronological)
order as long as `m ≤ 12 < 16` and `d ≤ 31 < 32`.  All date comparisons
of the Python code are modelled through this key. -/
def Date.key (a : Date) : Nat :=
  a.y * 512 + a.m * 32 + a.d

/-- Days in all years before year `y` (proleptic Gregorian, year ≥ 1). -/
def daysBeforeYear (y : Nat) : Nat :=
  let n := y - 1
  365 * n + n / 4 + n / 400 - n / 100

/-- Days in all months of year `y` before month `m`. -/
def daysBeforeMonth (y m : Nat) : Nat :=
  let lp := if isLeap y then 1 else 0
  if m ≤ 1 then 0
  else if m = 2 then 31
  else if m = 3 then 59 + lp
  else if m = 4 then 90 + lp
  else if m = 5 then 120 + lp
  else if m = 6 then 151 + lp
  else if m = 7 then 181 + lp
  else if m = 8 then 212 + lp
  else if m = 9 then 243 + lp
  else if m = 10 then 273 + lp
  else if m = 11 then 304 + lp
  else 334 + lp

/-- Day count of a date (proleptic Gregorian ordinal, as in
`datetime.date.toordinal`): used only for day differences
(`Series.diff().dt.days` in `prepare_inputs`). -/
def Date.ord (a : Date) : Nat :=
  daysBeforeYear a.y + daysBeforeMonth a.y a.m + a.d

/-- Next calendar day (`+ timedelta(days=1)`). -/
def succDay (a : Date) : Date :=
  if a.d < daysInMonth a.y a.m then ⟨a.y, a.m, a.d + 1⟩
  else if a.m < 12 then ⟨a.y, a.m + 1, 1⟩
  else ⟨a.y + 1, 1, 1⟩

/-- Previous calendar day (`- timedelta(days=1)`). -/
def predDay (a : Date) : Date :=
  if 1 < a.d then ⟨a.y, a.m, a.d - 1⟩
  else if 1 < a.m then ⟨a.y, a.m - 1, daysInMonth a.y (a.m - 1)⟩
  else ⟨a.y - 1, 12, 31⟩

/-- Python `date + timedelta(days=n)`, `n` possibly negative. -/
def addDays (n : Int) (a : Date) : Date :=
  if 0 ≤ n then succDay^[n.toNat] a else predDay^[(-n).toNat] a

/-- Zero-based month counter `12 y + (m - 1)`. -/
def monthIndex (a : Date) : Nat :=
  12 * a.y + (a.m - 1)

/-- Date of month counter `t` with the day clamped to the month length
(this is how `dateutil.relativedelta` resolves day overflow). -/
def ofMonthIndexClamp (t day : Nat) : Date :=
  ⟨t / 12, t % 12 + 1, min day (daysInMonth (t / 12) (t % 12 + 1))⟩

/-- Python `date - relativedelta(months=k)`. -/
def subMonths (k : Nat) (a : Date) : Date :=
  ofMonthIndexClamp (monthIndex a - k) a.d

/-- Python `date + relativedelta(months=k)` / `pd.DateOffset(months=k)`. -/
def addMonths (k : Nat) (a : Date) : Date :=
  ofMonthIndexClamp (monthIndex a + k) a.d

/-- Python `date + pd.DateOffset(years=k)` (clamps Feb 29 to Feb 28). -/
def addYears (k : Nat) (a : Date) : Date :=
  ofMonthIndexClamp (monthIndex a + 12 * k) a.d

/-- Pandas `date + pd.offsets.MonthEnd(0)`: roll forward to the last day of the
date's month (a fixed point when the date already is a month end). -/
def monthEnd (a : Date) : Date :=
  ⟨a.y, a.m, daysInMonth a.y a.m⟩

/-- Python `date.replace(day=1)`. -/
def firstOfMonth (a : Date) : Date :=
  ⟨a.y, a.m, 1⟩

/-- Python `%` on integers (result has the sign of the divisor; for the
divisor 12 used in the source, the result lies in `[0, 12)`). -/
def pymod (a b : Int) : Int :=
  a.emod b

/-! ## Predecessor search

`threemonthdate` (utility_functions.py:148-188) finds the row holding the
latest date at or before a computed search date, through
`date_table[date_table['date'] <= searchdate]['date'].max()` followed by
`date_table[date_table['date'] == threedate].index[0]`.  The `.max()` of
an empty selection is `NaN` and the subsequent `.index[0]` raises
`IndexError`; that failure is modelled as `none`. -/

/-- Pandas `Series.max()` over a list of keys (`none` on an empty series). -/
def colMax : List Nat → Option Nat
  | [] => none
  | x :: xs => some (xs.foldl Nat.max x)

/-- Pandas `Series.min()` over a list of dates. -/
def colMinDate : List Date → Option Date
  | [] => none
  | x :: xs => some (xs.foldl (fun a b => if b.key < a.key then b else a) x)

/-- The filter-max-index predecessor lookup of `threemonthdate`:
index of the first row whose date equals the maximum date `≤ t`. -/
def predSearch (dates : List Date) (t : Date) : Option Nat :=
  match colMax ((dates.filter fun d => d.key ≤ t.key).map Date.key) with
  | none => none
  | some k => dates.findIdx? fun d => d.key == k

/-- The anchor search date computed by `threemonthdate`
(utility_functions.py:171-184). -/
def searchDate (date : Date) (j : Int) (endofm : Bool) (dayt : Nat) : Date :=
  if endofm then
    addDays (-1) (subMonths 2 (firstOfMonth date))
  else
    let adjusted := addDays (j - 1) date
    let sd := subMonths 3 (addDays ((dayt : Int) - 1) (firstOfMonth adjusted))
    if pymod ((date.m : Int) - (sd.m : Int)) 12 = 2 ∧ 15 < dayt then subMonths 1 sd
    else sd

/-- The source's `threemonthdate(date_table, date, j, endofm, dayt)`. -/
def threemonthdate (dates : List Date) (date : Date) (j : Int) (endofm : Bool)
    (dayt : Nat) : Option Nat :=
  predSearch dates (searchDate date j endofm dayt)

/-- The source's `check_EndOfM(date_table, i)` (utility_functions.py:191-219): for the
last row the reference point is the next calendar day, for any other row
it is the NEXT ROW's date; the test is `month_diff in [1, -11]` where
`month_diff = (next.month - current.month) % 12`. -/
def check_EndOfM (dates : List Date) (i : Nat) : Bool :=
  let current := dates.getD i ⟨1, 1, 1⟩
  let nextd := if i = dates.length - 1 then succDay current else dates.getD (i + 1) ⟨1, 1, 1⟩
  let md := pymod ((nextd.m : Int) - (current.m : Int)) 12
  md == 1 || md == -11

/-! ## The date table and its slot columns

A row of the `dates` frame: a date plus the eight pointer slots `V1..V8`.
`NaN` (unset) is `none`; a stored row index `k` (including the sentinel
`0`) is `some k`. -/

structure DRow where
  date : Date
  slots : List (Option Nat)
deriving DecidableEq, Repr

def emptySlots : List (Option Nat) := List.replicate 8 none

def defaultDRow : DRow := ⟨⟨1, 1, 1⟩, emptySlots⟩

def datesOf (t : List DRow) : List Date := t.map DRow.date

/-- Read slot `Vj` of row `i` (`none` = `NaN` or out of range). -/
def getSlot (t : List DRow) (i j : Nat) : Option Nat :=
  ((t.getD i defaultDRow).slots).getD (j - 1) none

/-- Write slot `Vj` of row `i` (`date_table.at[i, f'V{j}'] = v`);
out-of-range `i` or `j` leaves the table unchanged. -/
def setSlot (t : List DRow) (i j : Nat) (v : Option Nat) : List DRow :=
  match t.get? i with
  | none => t
  | some r => t.set i ⟨r.date, r.slots.set (j - 1) v⟩

/-- Pandas `date_table['date'].min()` (empty tables never reach the builder's
loop; the default is irrelevant there). -/
def minDateOf (t : List DRow) : Date :=
  (colMinDate (datesOf t)).getD ⟨1, 1, 1⟩

/-- The frontier `date_table[date_table['V1'].isna()].index[-1]`: the LAST index whose
slot `V1` is unset, `none` when every `V1` is set. -/
def frontier (t : List DRow) : Option Nat :=
  (List.range t.length).foldl (fun acc i => if getSlot t i 1 = none then some i else acc) none

/-! ## The cache builder `generatelists` (utility_functions.py:222-297)

The builder is a single `while` loop.  Each iteration performs one chain
step (find the three-month anchor, store it in the active slot, advance
the slot arithmetic); when the anchor's date falls below
`min_date + relativedelta(months=3)` the builder re-picks the most recent
row with `V1` unset (the same bookkeeping as on entry) and continues, or
returns.  We record every slot write in a trace (`WEntry`), used to state
the cache-monotonicity claims; `generatelists` itself is the projection
that forgets the trace.  The loop carries explicit fuel; `none` models
both a crashed run (`IndexError` on an empty predecessor selection, or a
slot index outside `V1..V8`, where the Python would write to or read from
a dynamically created column) and fuel exhaustion, which concrete runs
below never hit. -/

/-- One recorded slot write: `sentinel` marks the `V1 = 0` write made
when an end-of-month frontier row is picked (utility_functions.py:250 and
287); chain-step writes (line 263) have `sentinel = false`. -/
structure WEntry where
  sentinel : Bool
  row : Nat
  slot : Nat
  val : Nat
deriving DecidableEq, Repr

/-- Frontier pick, end-of-month initialization and threshold guard: the
shared bookkeeping of the builder's entry block (lines 239-256) and of
its in-loop restart block (lines 276-292).  `.inl` = the builder returns
this table; `.inr` = continue with row `i`, slot `j`, mode `endofm`,
day-of-month `dayt`. -/
def glPick (thresh : Date) (t : List DRow) :
    (List DRow × List WEntry) ⊕ (List DRow × List WEntry × Nat × Int × Bool × Nat) :=
  match frontier t with
  | none => .inl (t, [])
  | some i =>
    let endofm := check_EndOfM (datesOf t) i
    let t2 := if endofm then setSlot t i 1 (some 0) else t
    let ws : List WEntry := if endofm then [⟨true, i, 1, 0⟩] else []
    let dayt := ((datesOf t).getD i ⟨1, 1, 1⟩).d
    if ((datesOf t).getD i ⟨1, 1, 1⟩).key < thresh.key then .inl (t2, ws)
    else .inr (t2, ws, i, if endofm then (8 : Int) else 1, endofm, dayt)

/-- One chain step (lines 259-271): anchor lookup, slot write, slot
advance, plus the decision `anchor date < threshold` of line 274. -/
def glStep (thresh : Date) (t : List DRow) (i : Nat) (j : Int) (endofm : Bool)
    (dayt : Nat) : Option (List DRow × WEntry × Nat × Int × Bool) :=
  match threemonthdate (datesOf t) ((datesOf t).getD i ⟨1, 1, 1⟩) j endofm dayt with
  | none => none
  | some index =>
    if 1 ≤ j ∧ j ≤ 8 then
      let t1 := setSlot t i j.toNat (some index)
      let ad := (datesOf t1).getD index ⟨1, 1, 1⟩
      let j1 : Int := (dayt : Int) - (ad.d : Int) + 1
      let j2 : Int := if endofm then 8 else if 9 < j1.natAbs then j1 + 31 else j1
      some (t1, ⟨false, i, j.toNat, index⟩, index, j2, decide (ad.key < thresh.key))
    else none

/-- The builder's `while` loop, translated flat: one fuel unit per
iteration, restart bookkeeping inlined exactly as in the source. -/
def glLoopW (fuel : Nat) (thresh : Date) (t : List DRow) (i : Nat) (j : Int)
    (endofm : Bool) (dayt : Nat) (acc : List WEntry) : Option (List DRow × List WEntry) :=
  match fuel with
  | 0 => none
  | Nat.succ f =>
    match glStep thresh t i j endofm dayt with
    | none => none
    | some (t1, w, index, j2, below) =>
      if below then
        match glPick thresh t1 with
        | .inl (t2, ws) => some (t2, (acc ++ [w]) ++ ws)
        | .inr (t2, ws, i2, j3, e2, dy2) => glLoopW f thresh t2 i2 j3 e2 dy2 ((acc ++ [w]) ++ ws)
      else
        glLoopW f thresh t1 index j2 endofm dayt (acc ++ [w])

/-- Fuel budget: the loop runs at most once per (row, chain) pair, which
`(n + 2)^2` dominates. -/
def glFuel (t : List DRow) : Nat := (t.length + 2) * (t.length + 2)

/-- The builder with its write trace, at an arbitrary chain-termination
threshold (the source fixes it to `min_date + relativedelta(months=3)`,
line 252). -/
def generatelistsAtW (thresh : Date) (fuel : Nat) (t : List DRow) :
    Option (List DRow × List WEntry) :=
  match glPick thresh t with
  | .inl (t2, ws) => some (t2, ws)
  | .inr (t2, ws, i, j, e, dy) => glLoopW fuel thresh t2 i j e dy ws

/-- The source's `generatelists(date_table)`, with its write trace. -/
def generatelistsW (t : List DRow) : Option (List DRow × List WEntry) :=
  generatelistsAtW (addMonths 3 (minDateOf t)) (glFuel t) t

/-- The source's `generatelists(date_table)`. -/
def generatelists (t : List DRow) : Option (List DRow) :=
  (generatelistsW t).map Prod.fst

/-! ## The builder restructured as chains (the spec's description)

Section 4.3 of the spec describes the same computation as an outer loop
over frontier restarts, each running one inner chain to its termination.
`glChainW` is one chain, `glOuterW` the restart loop; fuel is threaded
through so the two shapes consume it identically, which
`glLoopW_eq_chain` below turns into an equality. -/

/-- One chain: repeat the chain step until the found anchor's date falls
below `thresh`.  The remaining fuel is returned bundled with the proof
that it strictly decreased, so that the restart loop below is
structurally well-founded. -/
def glChainW (fuel : Nat) (thresh : Date) (t : List DRow) (i : Nat) (j : Int)
    (endofm : Bool) (dayt : Nat) (acc : List WEntry) :
    Option (List DRow × List WEntry × {f : Nat // f < fuel}) :=
  match fuel with
  | 0 => none
  | Nat.succ f =>
    match glStep thresh t i j endofm dayt with
    | none => none
    | some (t1, w, index, j2, below) =>
      if below then some (t1, acc ++ [w], ⟨f, Nat.lt_succ_self f⟩)
      else
        match glChainW f thresh t1 index j2 endofm dayt (acc ++ [w]) with
        | none => none
        | some (t3, a3, f3) => some (t3, a3, ⟨f3.1, Nat.lt_succ_of_lt f3.2⟩)

/-- The outer restart loop of the spec's description: pick the frontier,
run one chain, repeat on the remaining fuel. -/
def glOuterW (fuel : Nat) (thresh : Date) (t : List DRow) (acc : List WEntry) :
    Option (List DRow × List WEntry) :=
  match glPick thresh t with
  | .inl (t2, ws) => some (t2, acc ++ ws)
  | .inr (t2, ws, i, j, e, dy) =>
    match glChainW fuel thresh t2 i j e dy (acc ++ ws) with
    | none => none
    | some (t3, a3, f3) => glOuterW f3.1 thresh t3 a3
termination_by fuel
decreasing_by exact f3.2

/-- The builder in the spec's chain/restart shape, at threshold `thresh`. -/
def builderAtW (thresh : Date) (fuel : Nat) (t : List DRow) :
    Option (List DRow × List WEntry) :=
  glOuterW fuel thresh t []

/-- Spec shape without the trace. -/
def builderAt (thresh : Date) (fuel : Nat) (t : List DRow) : Option (List DRow) :=
  (builderAtW thresh fuel t).map Prod.fst

/-! ## The history assembler `history` (utility_functions.py:101-145)

It runs on the merged table produced by `prepare_inputs`: date, slots
`V1..V8`, and the seven variable columns (modelled as `List ℚ`).  The
walk repeats twelve times: read the active slot of the current row
(`int(...)` of `NaN` raises, modelled `none`), append the pointed-to
row's date and values, recompute the slot exactly as the builder does.
A slot number outside `V1..V8` addresses a column the merged frame does
not have (`KeyError`), also `none`. -/

structure MRow where
  date : Date
  slots : List (Option Nat)
  vals : List ℚ
deriving DecidableEq, Repr

def defaultMRow : MRow := ⟨⟨1, 1, 1⟩, emptySlots, []⟩

def mdatesOf (t : List MRow) : List Date := t.map MRow.date

/-- Read slot `Vj` of merged row `i`. -/
def mslot (t : List MRow) (i j : Nat) : Option Nat :=
  ((t.getD i defaultMRow).slots).getD (j - 1) none

/-- The `while count < 12` walk of `history`, instrumented with the list
of `(row, slot)` pairs it reads (the slot accesses
`delta_data.iloc[oldindex][f'V{j}']` of line 134).  The read trace is
returned even when the walk fails, since those reads precede the raised
exception. -/
def historyGoW (t : List MRow) (dayt : Nat) (endofm : Bool) :
    Nat → Nat → Int → List (Date × List ℚ) → List (Nat × Nat) →
    Option (List (Date × List ℚ)) × List (Nat × Nat)
  | 0, _, _, acc, rds => (some acc, rds)
  | Nat.succ c, oldindex, j, acc, rds =>
    if 1 ≤ j ∧ j ≤ 8 then
      match mslot t oldindex j.toNat with
      | none => (none, rds ++ [(oldindex, j.toNat)])
      | some index =>
        if index < t.length then
          let r := t.getD index defaultMRow
          let j1 : Int := (dayt : Int) - (r.date.d : Int) + 1
          let j2 : Int := if endofm then 8 else if 9 < j1.natAbs then j1 + 31 else j1
          historyGoW t dayt endofm c index j2 (acc ++ [(r.date, r.vals)])
            (rds ++ [(oldindex, j.toNat)])
        else (none, rds ++ [(oldindex, j.toNat)])
    else (none, rds)

/-- The source's `history(i, delta_data)` together with its read trace:
the current row followed by its twelve three-month anchors. -/
def historyW (i : Nat) (t : List MRow) :
    Option (List (Date × List ℚ)) × List (Nat × Nat) :=
  let endofm := check_EndOfM (mdatesOf t) i
  let dayt := ((mdatesOf t).getD i ⟨1, 1, 1⟩).d
  let r0 := t.getD i defaultMRow
  historyGoW t dayt endofm 12 i (if endofm then 8 else 1) [(r0.date, r0.vals)] []

/-- The source's `history(i, delta_data)`. -/
def history (i : Nat) (t : List MRow) : Option (List (Date × List ℚ)) :=
  (historyW i t).1

/-! ## The weighted decomposition (calculate_fci.py:27-68 and 129-140) -/

/-- Element-wise product of two variable rows. -/
def rowMul (a b : List ℚ) : List ℚ := List.zipWith (fun x y => x * y) a b

/-- Element-wise sum of two variable rows. -/
def addRow (a b : List ℚ) : List ℚ := List.zipWith (fun x y => x + y) a b

/-- Column-wise `.sum()` of a stack of equal-length variable rows. -/
def colSum : List (List ℚ) → List ℚ
  | [] => []
  | r :: rs => rs.foldl addRow r

/-- The product-and-sum `(hist.iloc[0:k][data_cols] * multipliers.iloc[0:k].values).sum()`. -/
def weightedContrib (hist : List (Date × List ℚ)) (mult : List (List ℚ)) (k : Nat) :
    List ℚ :=
  colSum (List.zipWith rowMul ((hist.take k).map Prod.snd) (mult.take k))

/-- The source's `calculate_fci_for_row`: the 3-year (k = 12) and 1-year (k = 4)
per-variable contribution vectors for row `i`. -/
def calculate_fci_for_row (i : Nat) (t : List MRow) (mult : List (List ℚ)) :
    Option (List ℚ × List ℚ) :=
  (history i t).map fun hist => (weightedContrib hist mult 12, weightedContrib hist mult 4)

/-- The published index value of one horizon:
`-1 * FCI_decomp[cols].sum(axis=1)` (calculate_fci.py:137-138). -/
def fciVal (contrib : List ℚ) : ℚ := -1 * contrib.sum

/-! ## Input preparation `prepare_inputs` (utility_functions.py:16-78)

Modelled for the ordinary (non-16-column) input: a date column and seven
variable columns.  Dates are already parsed (`pd.to_datetime` only
affects the textual format).  When every consecutive gap lies in 28..31
days, the series is declared monthly, every date is advanced to its
month end and the original dates are retained.  The slot table is
initialized unset, handed to `generatelists`, then merged back with the
data on the (normalized) date column with `how='left'`.  A left row
without a partner would surface as NaN values in pandas; that situation
cannot arise here because the merge keys of both sides are the same date
list, so the model keeps only the matched combinations. -/

structure InRow where
  date : Date
  vals : List ℚ
deriving DecidableEq, Repr

/-- The monthly test: all consecutive day gaps in `[28, 31]`
(utility_functions.py:47-48). -/
def isMonthly (dates : List Date) : Bool :=
  (List.zip dates dates.tail).all fun p =>
    decide (28 ≤ (p.2.ord : Int) - (p.1.ord : Int) ∧ (p.2.ord : Int) - (p.1.ord : Int) ≤ 31)

/-- The calendar normalization stage of `prepare_inputs` (lines 46-54). -/
def normalizeDates (dates : List Date) : List Date :=
  if isMonthly dates then dates.map monthEnd else dates

/-- The merge `dates.merge(delta_data, on='date', how='left')` (line 72). -/
def mergeOnDate (dt : List DRow) (inp : List InRow) : List MRow :=
  (dt.map fun r =>
    (inp.filter fun x => x.date == r.date).map fun x => MRow.mk r.date r.slots x.vals).flatten

/-- The source's `prepare_inputs(delta_data)`: the merged table, the stored flag, and
the retained original dates. -/
def prepare_inputs (input : List InRow) :
    Option (List MRow × Bool × Option (List Date)) :=
  let dates0 := input.map InRow.date
  let stored := isMonthly dates0
  let dates1 := normalizeDates dates0
  let input1 := List.zipWith (fun d (r : InRow) => InRow.mk d r.vals) dates1 input
  let dt : List DRow := dates1.map fun d => ⟨d, emptySlots⟩
  match generatelists dt with
  | none => none
  | some dt2 => some (mergeOnDate dt2 input1, stored, if stored then some dates0 else none)

/-! ## Invariant predicates -/

/-- Dates with strictly increasing keys (the spec's load-bearing table
order: strictly increasing by date, no duplicates). -/
def SortedKeys (ds : List Date) : Prop :=
  ∀ b, b < ds.length → ∀ a, a < b → (ds.getD a ⟨1, 1, 1⟩).key < (ds.getD b ⟨1, 1, 1⟩).key

instance (ds : List Date) : Decidable (SortedKeys ds) := by
  unfold SortedKeys; infer_instance

/-- Every row carries the full eight slot columns. -/
def SlotsLen8 (t : List DRow) : Prop :=
  ∀ r ∈ t, r.slots.length = 8

instance (t : List DRow) : Decidable (SlotsLen8 t) := by
  unfold SlotsLen8; infer_instance

/-- Slot definedness is preserved from `s` to `t` (the cache is never
invalidated). -/
def SlotsMonoLe (s t : List DRow) : Prop :=
  ∀ a b, getSlot s a b ≠ none → getSlot t a b ≠ none

/-! ## Definitions taken from the spec's wording, for comparison

The claims about `check_EndOfM` and the normal-mode anchor date are
refinement statements: the spec's words are written down separately and
compared with the source translation. -/

/-- Modelled from the spec: "true iff the next calendar day after the
row's date falls in a different month". -/
def specNextDayNewMonth (d : Date) : Prop :=
  (succDay d).m ≠ d.m ∨ (succDay d).y ≠ d.y

instance (d : Date) : Decidable (specNextDayNewMonth d) := by
  unfold specNextDayNewMonth; infer_instance

/-- Modelled from the spec (section 4.3, normal mode): shift the current
date forward by `slot - 1` days, take the first day of that shifted
month, add `dayt - 1` days, subtract exactly three months, and subtract
one further month exactly when the resulting month distance from the
original date is two months and `dayt > 15`. -/
def specNormalSearch (d : Date) (j : Int) (dayt : Nat) : Date :=
  let shifted := addDays (j - 1) d
  let candidate := addDays ((dayt : Int) - 1) (firstOfMonth shifted)
  let s := subMonths 3 candidate
  if pymod ((d.m : Int) - (s.m : Int)) 12 = 2 ∧ 15 < dayt then subMonths 1 s else s

/-! ## Concrete tables used by the counterexamples and witnesses -/

/-- Fresh slot table over a list of dates. -/
def mkTable (ds : List Date) : List DRow :=
  ds.map fun d => ⟨d, emptySlots⟩

/-- Twelve month-end dates, January to December 1980. -/
def tableMonthly12 : List DRow :=
  mkTable ((List.range 12).map fun k => ⟨1980, k + 1, daysInMonth 1980 (k + 1)⟩)

/-- A sparse calendar: three January 1977 dates, then a single date three
years later.  The builder terminates its only chain immediately, leaving
the walk of the last row unsupported. -/
def tableSparse : List DRow :=
  mkTable [⟨1977, 1, 5⟩, ⟨1977, 1, 10⟩, ⟨1977, 1, 15⟩, ⟨1980, 1, 15⟩]

/-- The sparse table merged with zero data values. -/
def mergedSparse : List MRow :=
  ((generatelists tableSparse).getD []).map fun r => ⟨r.date, r.slots, [0, 0, 0, 0, 0, 0, 0]⟩

/-- An irregular calendar on which a normal chain and an end-of-month
chain write different values into the same slot `V8` of the row
1980-08-30 (index 5), and on which the builder's final act writes the
sentinel into `V1` of 1980-02-06 (index 1), which the history walk from
the last row then consumes as a row pointer. -/
def tableOverwrite : List DRow :=
  mkTable [⟨1979, 12, 1⟩, ⟨1980, 2, 6⟩, ⟨1980, 3, 6⟩, ⟨1980, 5, 30⟩, ⟨1980, 6, 5⟩,
    ⟨1980, 8, 30⟩, ⟨1980, 11, 30⟩, ⟨1980, 12, 6⟩]

/-- The overwrite table merged with zero data values. -/
def mergedOverwrite : List MRow :=
  ((generatelists tableOverwrite).getD []).map fun r => ⟨r.date, r.slots, [0, 0, 0, 0, 0, 0, 0]⟩

/-- Forty-six month-end dates starting 1980-01-31. -/
def dsMonthly46 : List Date :=
  (List.range 46).map fun k => ⟨1980 + k / 12, k % 12 + 1, daysInMonth (1980 + k / 12) (k % 12 + 1)⟩

/-- The end-to-end example input: a monthly series starting 1980-01-31
with a constant quarterly difference of 1 in the first variable. -/
def inMonthly46 : List InRow :=
  dsMonthly46.map fun d => ⟨d, [1, 0, 0, 0, 0, 0, 0]⟩

/-- The all-0.1 weight matrix of the end-to-end example. -/
def multTenth : List (List ℚ) :=
  List.replicate 12 (List.replicate 7 (1 / 10))

/-- The merged table of the end-to-end example. -/
def mergedMonthly46 : List MRow :=
  ((prepare_inputs inMonthly46).map Prod.fst).getD []

/-- Two same-month dates 28 days apart: the gap test declares the series
monthly and month-end normalization collapses both onto 2021-01-31. -/
def rawSameMonth : List Date := [⟨2021, 1, 1⟩, ⟨2021, 1, 29⟩]

/-- The collapse example with data values. -/
def inputSameMonth : List InRow :=
  [⟨⟨2021, 1, 1⟩, [1, 0, 0, 0, 0, 0, 0]⟩, ⟨⟨2021, 1, 29⟩, [2, 0, 0, 0, 0, 0, 0]⟩]

/-- A well-behaved two-row input (distinct months) for the witnesses. -/
def inputTwoMonths : List InRow :=
  [⟨⟨2021, 1, 31⟩, [3, 0, 0, 0, 0, 0, 0]⟩, ⟨⟨2021, 2, 28⟩, [4, 0, 0, 0, 0, 0, 0]⟩]

/-- The default `InRow` used by positional access. -/
def defaultInRow : InRow := ⟨⟨1, 1, 1⟩, []⟩

/-- A fully marked two-row table (every `V1` set): the builder returns it
unchanged. -/
def tableAllMarked : List DRow :=
  [⟨⟨2021, 1, 31⟩, [some 0, none, none, none, none, none, none, none]⟩,
   ⟨⟨2021, 2, 28⟩, [some 0, none, none, none, none, none, none, none]⟩]

/-! # Theorems

First the generic helpers about the folds and the slot table, then one
theorem (plus witness or counterexample) per claim. -/

theorem foldl_max_le (xs : List Nat) (a : Nat) : a ≤ xs.foldl Nat.max a := by
  induction xs generalizing a with
  | nil => simp
  | cons x xs ih => exact le_trans (Nat.le_max_left a x) (ih (Nat.max a x))

theorem foldl_max_ge {xs : List Nat} {x : Nat} (hx : x ∈ xs) (a : Nat) :
    x ≤ xs.foldl Nat.max a := by
  induction xs generalizing a with
  | nil => cases hx
  | cons y ys ih =>
    rcases List.mem_cons.mp hx with h | h
    · subst h; exact le_trans (Nat.le_max_right a x) (foldl_max_le ys _)
    · exact ih h _

theorem foldl_max_mem (xs : List Nat) (a : Nat) :
    xs.foldl Nat.max a = a ∨ xs.foldl Nat.max a ∈ xs := by
  induction xs generalizing a with
  | nil => left; rfl
  | cons x xs ih =>
    rw [List.foldl_cons]
    rcases ih (Nat.max a x) with h | h
    · rw [h]
      have h2 : Nat.max a x = a ∨ Nat.max a x = x := by
        rcases Nat.le_total a x with hle | hle
        · right; exact Nat.max_eq_right hle
        · left; exact Nat.max_eq_left hle
      rcases h2 with h2 | h2
      · left; exact h2
      · right; rw [h2]; exact List.mem_cons_self x xs
    · right; exact List.mem_cons_of_mem x h

theorem colMax_eq_none_iff {l : List Nat} : colMax l = none ↔ l = [] := by
  cases l <;> simp [colMax]

theorem colMax_spec {l : List Nat} {k : Nat} (h : colMax l = some k) :
    k ∈ l ∧ ∀ x ∈ l, x ≤ k := by
  cases l with
  | nil => simp [colMax] at h
  | cons x xs =>
    simp only [colMax, Option.some_inj] at h
    subst h
    refine ⟨?_, ?_⟩
    · rcases foldl_max_mem xs x with h | h
      · rw [h]; exact List.mem_cons_self x xs
      · exact List.mem_cons_of_mem x h
    · intro y hy
      rcases List.mem_cons.mp hy with h | h
      · subst h; exact foldl_max_le xs y
      · exact foldl_max_ge h x

theorem foldl_lastSat_none {p : Nat → Prop} [DecidablePred p] {n : Nat}
    (h : (List.range n).foldl (fun acc k => if p k then some k else acc) none = none) :
    ∀ k, k < n → ¬ p k := by
  induction n with
  | zero => intro k hk; omega
  | succ m ih =>
    rw [List.range_succ, List.foldl_append, List.foldl_cons, List.foldl_nil] at h
    by_cases hp : p m
    · rw [if_pos hp] at h; exact absurd h (by simp)
    · rw [if_neg hp] at h
      intro k hk
      rcases Nat.lt_succ_iff_lt_or_eq.mp hk with h2 | h2
      · exact ih h k h2
      · subst h2; exact hp

theorem foldl_lastSat_some {p : Nat → Prop} [DecidablePred p] {n i : Nat}
    (h : (List.range n).foldl (fun acc k => if p k then some k else acc) none = some i) :
    i < n ∧ p i ∧ ∀ k, i < k → k < n → ¬ p k := by
  induction n with
  | zero => simp at h
  | succ m ih =>
    rw [List.range_succ, List.foldl_append, List.foldl_cons, List.foldl_nil] at h
    by_cases hp : p m
    · rw [if_pos hp] at h
      obtain rfl : m = i := by simpa using h
      exact ⟨Nat.lt_succ_self m, hp, fun k h1 h2 => by omega⟩
    · rw [if_neg hp] at h
      obtain ⟨h1, h2, h3⟩ := ih h
      refine ⟨Nat.lt_succ_of_lt h1, h2, fun k hk1 hk2 => ?_⟩
      rcases Nat.lt_succ_iff_lt_or_eq.mp hk2 with h4 | h4
      · exact h3 k hk1 h4
      · subst h4; exact hp

theorem frontier_eq_none {t : List DRow} (h : frontier t = none) :
    ∀ k, k < t.length → getSlot t k 1 ≠ none := by
  unfold frontier at h
  exact foldl_lastSat_none h

theorem frontier_eq_some {t : List DRow} {i : Nat} (h : frontier t = some i) :
    i < t.length ∧ getSlot t i 1 = none ∧
      ∀ k, i < k → k < t.length → getSlot t k 1 ≠ none := by
  unfold frontier at h
  exact foldl_lastSat_some h

theorem length_setSlot (t : List DRow) (i j : Nat) (v : Option Nat) :
    (setSlot t i j v).length = t.length := by
  unfold setSlot
  cases t.get? i <;> simp

theorem datesOf_setSlot (t : List DRow) (i j : Nat) (v : Option Nat) :
    datesOf (setSlot t i j v) = datesOf t := by
  unfold setSlot
  cases h : t.get? i with
  | none => rfl
  | some r =>
    rw [List.get?_eq_getElem?] at h
    have hi : i < t.length := by
      by_contra hc
      rw [List.getElem?_eq_none (by omega)] at h
      cases h
    apply List.ext_getElem?
    intro k
    simp only [datesOf, List.getElem?_map, List.getElem?_set]
    by_cases hk : i = k
    · subst hk
      rw [if_pos rfl, if_pos hi, h]
      rfl
    · rw [if_neg hk]

theorem getSlot_setSlot_or (t : List DRow) (i j : Nat) (v : Nat) (a b : Nat) :
    getSlot (setSlot t i j (some v)) a b = getSlot t a b ∨
      getSlot (setSlot t i j (some v)) a b = some v := by
  unfold setSlot getSlot
  cases h : t.get? i with
  | none => left; rfl
  | some r =>
    rw [List.get?_eq_getElem?] at h
    have hi : i < t.length := by
      by_contra hc
      rw [List.getElem?_eq_none (by omega)] at h
      cases h
    simp only [List.getD_eq_getElem?_getD, List.getElem?_set]
    by_cases ha : i = a
    · subst ha
      rw [if_pos rfl, if_pos hi, h]
      simp only [Option.getD_some, List.getD_eq_getElem?_getD, List.getElem?_set]
      by_cases hb : j - 1 = b - 1
      · by_cases hlen : j - 1 < r.slots.length
        · right; rw [if_pos hb, if_pos hlen]; rfl
        · left
          rw [if_pos hb, if_neg hlen,
            List.getElem?_eq_none (show r.slots.length ≤ b - 1 by omega)]
      · left; rw [if_neg hb]
    · rw [if_neg ha]; left; rfl

theorem getSlot_setSlot_self {t : List DRow} {i j : Nat} (v : Option Nat)
    (hi : i < t.length) (hj1 : 1 ≤ j) (hj8 : j ≤ 8) (h8 : SlotsLen8 t) :
    getSlot (setSlot t i j v) i j = v := by
  unfold setSlot getSlot
  cases h2 : t.get? i with
  | none =>
    rw [List.get?_eq_getElem?, List.getElem?_eq_getElem hi] at h2
    cases h2
  | some r =>
    have hr : r ∈ t := List.get?_mem h2
    have hrlen : r.slots.length = 8 := h8 r hr
    simp only [List.getD_eq_getElem?_getD, List.getElem?_set, if_true]
    rw [if_pos hi]
    simp only [Option.getD_some, List.getD_eq_getElem?_getD, List.getElem?_set, if_true]
    rw [if_pos (show j - 1 < r.slots.length by omega)]
    rfl

theorem slotsLen8_setSlot {t : List DRow} (h : SlotsLen8 t) (i j : Nat) (v : Option Nat) :
    SlotsLen8 (setSlot t i j v) := by
  unfold setSlot
  cases hg : t.get? i with
  | none => exact h
  | some r =>
    intro s hs
    rcases List.mem_or_eq_of_mem_set hs with h2 | h2
    · exact h s h2
    · subst h2
      simp only [List.length_set]
      exact h r (List.get?_mem hg)

/-! ## C1: the predecessor search -/

/-- C1: on a table with strictly increasing dates, `predSearch` (the
filter-max-index lookup inside `threemonthdate`) returns the row whose
date is the maximum over all row dates `≤ t`; it returns `none` exactly
when no row date is `≤ t`; and when the lookup fails, the builder's loop
aborts instead of proceeding with a bogus index. -/
theorem C1_predecessor_search (dates : List Date) (t : Date) (hs : SortedKeys dates) :
    (predSearch dates t = none ↔ ∀ d ∈ dates, ¬ d.key ≤ t.key)
    ∧ (∀ i, predSearch dates t = some i →
        i < dates.length ∧ (dates.getD i ⟨1, 1, 1⟩).key ≤ t.key ∧
        ∀ k, k < dates.length → (dates.getD k ⟨1, 1, 1⟩).key ≤ t.key →
          (dates.getD k ⟨1, 1, 1⟩).key ≤ (dates.getD i ⟨1, 1, 1⟩).key ∧ k ≤ i)
    ∧ (∀ fuel thresh tt ii j e dy acc,
        threemonthdate (datesOf tt) ((datesOf tt).getD ii ⟨1, 1, 1⟩) j e dy = none →
        glLoopW fuel thresh tt ii j e dy acc = none) := by
  refine ⟨?_, ?_, ?_⟩
  · unfold predSearch
    cases hm : colMax ((dates.filter fun d => decide (d.key ≤ t.key)).map Date.key) with
    | none =>
      rw [colMax_eq_none_iff] at hm
      rw [List.map_eq_nil_iff] at hm
      simp only [List.filter_eq_nil_iff, decide_eq_true_eq] at hm
      simpa using hm
    | some k =>
      obtain ⟨hmem, -⟩ := colMax_spec hm
      obtain ⟨d, hdf, hdk⟩ := List.mem_map.mp hmem
      obtain ⟨hdd, hdt⟩ := List.mem_filter.mp hdf
      constructor
      · intro hfind
        rw [List.findIdx?_eq_none_iff] at hfind
        have := hfind d hdd
        rw [hdk] at this
        simp at this
      · intro hall
        exact absurd (of_decide_eq_true hdt) (hall d hdd)
  · intro i hp
    unfold predSearch at hp
    cases hm : colMax ((dates.filter fun d => decide (d.key ≤ t.key)).map Date.key) with
    | none => rw [hm] at hp; cases hp
    | some k =>
      rw [hm] at hp
      obtain ⟨hmem, hmax⟩ := colMax_spec hm
      obtain ⟨hilen, hik, -⟩ := List.findIdx?_eq_some_iff_getElem.mp hp
      have hkey : dates[i].key = k := by simpa using hik
      have hgetD : dates.getD i ⟨1, 1, 1⟩ = dates[i] := by
        rw [List.getD_eq_getElem?_getD, List.getElem?_eq_getElem hilen]; rfl
      obtain ⟨d, hdf, hdk⟩ := List.mem_map.mp hmem
      obtain ⟨hdd, hdt⟩ := List.mem_filter.mp hdf
      refine ⟨hilen, ?_, ?_⟩
      · rw [hgetD, hkey, ← hdk]
        exact of_decide_eq_true hdt
      · intro a halen hat
        have hgetDa : dates.getD a ⟨1, 1, 1⟩ = dates[a] := by
          rw [List.getD_eq_getElem?_getD, List.getElem?_eq_getElem halen]; rfl
        have hafilter : dates[a] ∈ dates.filter fun d => decide (d.key ≤ t.key) := by
          rw [List.mem_filter]
          exact ⟨List.getElem_mem halen, decide_eq_true (hgetDa ▸ hat)⟩
        have hle : dates[a].key ≤ k :=
          hmax _ (List.mem_map_of_mem Date.key hafilter)
        have hle2 : (dates.getD a ⟨1, 1, 1⟩).key ≤ (dates.getD i ⟨1, 1, 1⟩).key := by
          rw [hgetD, hgetDa, hkey]; exact hle
        refine ⟨hle2, ?_⟩
        by_contra hcon
        have hlt : i < a := by omega
        have := hs a halen i hlt
        omega
  · intro fuel thresh tt ii j e dy acc hnone
    cases fuel with
    | zero => rfl
    | succ f =>
      unfold glLoopW glStep
      rw [hnone]

/-- Witness for C1 at a concrete two-row table and target 1980-02-10:
the search returns row 0 (1980-01-31), whose date is `≤` the target. -/
theorem C1_predecessor_search_witness :
    predSearch [⟨1980, 1, 31⟩, ⟨1980, 2, 29⟩] ⟨1980, 2, 10⟩ = some 0 ∧
      (([⟨1980, 1, 31⟩, ⟨1980, 2, 29⟩] : List Date).getD 0 ⟨1, 1, 1⟩).key ≤
        (Date.mk 1980 2 10).key := by
  have hps : predSearch [⟨1980, 1, 31⟩, ⟨1980, 2, 29⟩] ⟨1980, 2, 10⟩ = some 0 := by decide
  have h := (C1_predecessor_search [⟨1980, 1, 31⟩, ⟨1980, 2, 29⟩] ⟨1980, 2, 10⟩
    (by decide)).2.1 0 hps
  exact ⟨hps, h.2.1⟩

/-! ## C5: the end-of-month determination -/

/-- C5 fails as stated: for a non-last row the code compares the month
of the NEXT ROW, not of the next calendar day.  On the table
[2021-01-15, 2021-02-15] row 0 is classified end-of-month although the
next calendar day, 2021-01-16, lies in the same month. -/
theorem C5_counterexample :
    check_EndOfM [⟨2021, 1, 15⟩, ⟨2021, 2, 15⟩] 0 = true ∧
      ¬ specNextDayNewMonth ⟨2021, 1, 15⟩ :=
  ⟨by decide, by decide⟩

/-- C5 amended: `check_EndOfM` returns true iff the month of the next
ROW's date (or, for the last row only, of the next calendar day) exceeds
the current month by exactly one modulo twelve; for the last row this
agrees with the claim's "next calendar day falls in a different month". -/
theorem C5_amended (dates : List Date) (i : Nat) (hi : i < dates.length)
    (hv : ∀ d ∈ dates, d.Valid) :
    (check_EndOfM dates i = true ↔
      pymod (((if i = dates.length - 1 then succDay (dates.getD i ⟨1, 1, 1⟩)
               else dates.getD (i + 1) ⟨1, 1, 1⟩).m : Int)
             - ((dates.getD i ⟨1, 1, 1⟩).m : Int)) 12 = 1)
    ∧ (i = dates.length - 1 →
        (check_EndOfM dates i = true ↔ specNextDayNewMonth (dates.getD i ⟨1, 1, 1⟩))) := by
  have hmd : ∀ x : Int, pymod x 12 = -11 → False := by
    intro x hx
    have h0 : 0 ≤ Int.emod x 12 := Int.emod_nonneg x (by decide)
    unfold pymod at hx
    omega
  have hiff : check_EndOfM dates i = true ↔
      pymod (((if i = dates.length - 1 then succDay (dates.getD i ⟨1, 1, 1⟩)
               else dates.getD (i + 1) ⟨1, 1, 1⟩).m : Int)
             - ((dates.getD i ⟨1, 1, 1⟩).m : Int)) 12 = 1 := by
    unfold check_EndOfM
    simp only [Bool.or_eq_true, beq_iff_eq]
    constructor
    · rintro (h | h)
      · exact h
      · exact absurd h (fun hh => hmd _ hh)
    · exact Or.inl
  refine ⟨hiff, ?_⟩
  intro hlast
  rw [hiff, if_pos hlast]
  have hd : dates.getD i ⟨1, 1, 1⟩ ∈ dates := by
    rw [List.getD_eq_getElem?_getD, List.getElem?_eq_getElem hi]
    exact List.getElem_mem hi
  obtain ⟨hy1, hm1, hm12, hd1, hdle⟩ := hv _ hd
  set d := dates.getD i ⟨1, 1, 1⟩ with hdset
  by_cases hsm : d.d < daysInMonth d.y d.m
  · have hsd : succDay d = ⟨d.y, d.m, d.d + 1⟩ := by
      unfold succDay; rw [if_pos hsm]
    rw [hsd]
    apply iff_of_false
    · simp only
      rw [sub_self]
      decide
    · rw [specNextDayNewMonth, hsd]
      simp
  · by_cases hm : d.m < 12
    · have hsd : succDay d = ⟨d.y, d.m + 1, 1⟩ := by
        unfold succDay; rw [if_neg hsm, if_pos hm]
      rw [hsd]
      apply iff_of_true
      · simp only
        have h1 : ((d.m + 1 : Nat) : Int) - (d.m : Int) = 1 := by push_cast; ring
        rw [h1]
        decide
      · rw [specNextDayNewMonth, hsd]
        left
        simp only
        omega
    · have h12 : d.m = 12 := by omega
      have hsd : succDay d = ⟨d.y + 1, 1, 1⟩ := by
        unfold succDay; rw [if_neg hsm, if_neg hm]
      rw [hsd]
      apply iff_of_true
      · simp only
        rw [h12]
        decide
      · rw [specNextDayNewMonth, hsd]
        left
        simp only
        omega

/-- Witness for C5 at the table [2021-01-31, 2021-02-28], row 0. -/
theorem C5_amended_witness :
    check_EndOfM [⟨2021, 1, 31⟩, ⟨2021, 2, 28⟩] 0 = true ↔
      pymod (((([⟨2021, 1, 31⟩, ⟨2021, 2, 28⟩] : List Date).getD 1 ⟨1, 1, 1⟩).m : Int)
             - ((([⟨2021, 1, 31⟩, ⟨2021, 2, 28⟩] : List Date).getD 0 ⟨1, 1, 1⟩).m : Int)) 12 = 1 := by
  have h := (C5_amended [⟨2021, 1, 31⟩, ⟨2021, 2, 28⟩] 0 (by decide) (by decide)).1
  simpa using h

/-! ## C8: the anchor search date -/

theorem daysInMonth_ge_one (y m : Nat) : 1 ≤ daysInMonth y m := by
  unfold daysInMonth
  split_ifs <;> omega

theorem daysInMonth_le_31 (y m : Nat) : daysInMonth y m ≤ 31 := by
  unfold daysInMonth
  split_ifs <;> omega

theorem daysInMonth_ge_28 (y m : Nat) : 28 ≤ daysInMonth y m := by
  unfold daysInMonth
  split_ifs <;> omega

/-- C8: in end-of-month mode the anchor search date is the first day of
the current month minus two months minus one day, which equals the LAST
day of the month three months before; in normal mode it is exactly the
spec's day-reconstruction with the conditional extra month. -/
theorem C8_anchor_search_date (d : Date) (j : Int) (dayt : Nat) (hv : d.Valid) :
    searchDate d j true dayt = monthEnd (subMonths 3 d)
    ∧ searchDate d j false dayt = specNormalSearch d j dayt := by
  obtain ⟨hy1, hm1, hm12, -, -⟩ := hv
  constructor
  · unfold searchDate
    rw [if_pos rfl]
    have h1 : subMonths 2 (firstOfMonth d) =
        ⟨(12 * d.y + (d.m - 1) - 2) / 12, (12 * d.y + (d.m - 1) - 2) % 12 + 1, 1⟩ := by
      unfold subMonths firstOfMonth monthIndex ofMonthIndexClamp
      simp only
      rw [Nat.min_eq_left (daysInMonth_ge_one _ _)]
    rw [h1]
    have h2 : ∀ x : Date, addDays (-1) x = predDay x := by
      intro x
      unfold addDays
      rw [if_neg (by decide)]
      norm_num
    rw [h2]
    set t := 12 * d.y + (d.m - 1) - 2 with ht
    set p := 12 * d.y + (d.m - 1) - 3 with hp
    have htp : p = t - 1 ∧ 10 ≤ t := by omega
    have hrhs : monthEnd (subMonths 3 d) =
        ⟨p / 12, p % 12 + 1, daysInMonth (p / 12) (p % 12 + 1)⟩ := by
      unfold monthEnd subMonths monthIndex ofMonthIndexClamp
      simp only
    rw [hrhs]
    unfold predDay
    simp only
    rw [if_neg (by omega)]
    by_cases hz : t % 12 = 0
    · rw [if_neg (by omega : ¬ 1 < t % 12 + 1)]
      have e1 : p / 12 = t / 12 - 1 := by omega
      have e2 : p % 12 = 11 := by omega
      rw [e1, e2]
      rfl
    · rw [if_pos (by omega : 1 < t % 12 + 1)]
      have e1 : p / 12 = t / 12 := by omega
      have e2 : p % 12 + 1 = t % 12 := by omega
      rw [e1, e2]
      simp only [Nat.add_sub_cancel]
  · rfl

/-- Witness for C8 at 1980-03-31: the end-of-month anchor search date is
1979-12-31, the last day of the month three months before. -/
theorem C8_anchor_search_date_witness :
    searchDate ⟨1980, 3, 31⟩ 8 true 31 = monthEnd (subMonths 3 ⟨1980, 3, 31⟩) ∧
      searchDate ⟨1980, 3, 31⟩ 8 true 31 = ⟨1979, 12, 31⟩ := by
  have h := (C8_anchor_search_date ⟨1980, 3, 31⟩ 8 31 (by decide)).1
  exact ⟨h, by decide⟩

/-! ## C9: strict date order after normalization -/

/-- C9 fails as stated: the raw calendar [2021-01-01, 2021-01-29] is
valid and strictly increasing, its single gap of 28 days makes the
series count as monthly, and month-end normalization maps both dates to
2021-01-31 — the normalized sequence is NOT strictly increasing. -/
theorem C9_counterexample :
    SortedKeys rawSameMonth ∧ (∀ d ∈ rawSameMonth, d.Valid) ∧
      normalizeDates rawSameMonth = [⟨2021, 1, 31⟩, ⟨2021, 1, 31⟩] ∧
      ¬ SortedKeys (normalizeDates rawSameMonth) :=
  ⟨by decide, by decide, by decide, by decide⟩

theorem month16_lt {x y : Date} (hx : x.Valid) (hy : y.Valid) (hk : x.key < y.key)
    (hne : x.y ≠ y.y ∨ x.m ≠ y.m) : 16 * x.y + x.m < 16 * y.y + y.m := by
  obtain ⟨-, hm1x, hm12x, hd1x, hdlex⟩ := hx
  obtain ⟨-, hm1y, hm12y, hd1y, hdley⟩ := hy
  have h31x : x.d ≤ 31 := le_trans hdlex (daysInMonth_le_31 _ _)
  have h31y : y.d ≤ 31 := le_trans hdley (daysInMonth_le_31 _ _)
  unfold Date.key at hk
  rcases hne with h | h <;> omega

theorem monthEnd_key_lt {x y : Date} (h16 : 16 * x.y + x.m < 16 * y.y + y.m) :
    (monthEnd x).key < (monthEnd y).key := by
  have h1 := daysInMonth_le_31 x.y x.m
  have h2 := daysInMonth_ge_one y.y y.m
  unfold monthEnd Date.key
  simp only
  omega

/-- C9 amended: normalization preserves strict date order provided no
two consecutive raw dates share a calendar month (the counterexample
shows a 28-day same-month gap collapsing two dates). -/
theorem C9_amended (ds : List Date) (hv : ∀ d ∈ ds, d.Valid) (hs : SortedKeys ds)
    (hadj : ∀ k, k + 1 < ds.length →
      (ds.getD k ⟨1, 1, 1⟩).y ≠ (ds.getD (k + 1) ⟨1, 1, 1⟩).y ∨
        (ds.getD k ⟨1, 1, 1⟩).m ≠ (ds.getD (k + 1) ⟨1, 1, 1⟩).m) :
    SortedKeys (normalizeDates ds) := by
  unfold normalizeDates
  by_cases hmo : isMonthly ds = true
  · rw [if_pos hmo]
    have hvD : ∀ k, k < ds.length → (ds.getD k ⟨1, 1, 1⟩).Valid := by
      intro k hk
      rw [List.getD_eq_getElem?_getD, List.getElem?_eq_getElem hk]
      exact hv _ (List.getElem_mem hk)
    have step : ∀ k, k + 1 < ds.length →
        16 * (ds.getD k ⟨1, 1, 1⟩).y + (ds.getD k ⟨1, 1, 1⟩).m <
          16 * (ds.getD (k + 1) ⟨1, 1, 1⟩).y + (ds.getD (k + 1) ⟨1, 1, 1⟩).m := by
      intro k hk
      exact month16_lt (hvD k (by omega)) (hvD (k + 1) hk)
        (hs (k + 1) hk k (Nat.lt_succ_self k)) (hadj k hk)
    have chain : ∀ b, b < ds.length → ∀ a, a < b →
        16 * (ds.getD a ⟨1, 1, 1⟩).y + (ds.getD a ⟨1, 1, 1⟩).m <
          16 * (ds.getD b ⟨1, 1, 1⟩).y + (ds.getD b ⟨1, 1, 1⟩).m := by
      intro b
      induction b with
      | zero => intro _ a ha; omega
      | succ n ih =>
        intro hb a ha
        rcases Nat.lt_succ_iff_lt_or_eq.mp ha with h | h
        · exact lt_trans (ih (by omega) a h) (step n hb)
        · subst h; exact step a hb
    intro b hb a hab
    rw [List.length_map] at hb
    have hgb : (ds.map monthEnd).getD b ⟨1, 1, 1⟩ = monthEnd (ds.getD b ⟨1, 1, 1⟩) := by
      rw [List.getD_eq_getElem?_getD, List.getElem?_eq_getElem (by rw [List.length_map]; omega),
        List.getElem_map, List.getD_eq_getElem?_getD, List.getElem?_eq_getElem hb]
      rfl
    have hga : (ds.map monthEnd).getD a ⟨1, 1, 1⟩ = monthEnd (ds.getD a ⟨1, 1, 1⟩) := by
      rw [List.getD_eq_getElem?_getD, List.getElem?_eq_getElem (by rw [List.length_map]; omega),
        List.getElem_map, List.getD_eq_getElem?_getD,
        List.getElem?_eq_getElem (by omega : a < ds.length)]
      rfl
    rw [hga, hgb]
    exact monthEnd_key_lt (chain b hb a hab)
  · rw [if_neg hmo]
    exact hs

/-- Witness for C9 at the two-month calendar [2021-01-31, 2021-02-28]. -/
theorem C9_amended_witness :
    SortedKeys (normalizeDates [⟨2021, 1, 31⟩, ⟨2021, 2, 28⟩]) :=
  C9_amended [⟨2021, 1, 31⟩, ⟨2021, 2, 28⟩] (by decide) (by decide)
    (by
      intro k hk
      have hk0 : k = 0 := by simp at hk; omega
      subst hk0
      decide)

/-! ## Builder invariants -/


theorem datesOf_length (t : List DRow) : (datesOf t).length = t.length := by
  simp [datesOf]

theorem glStep_some_spec {thresh : Date} {t : List DRow} {i : Nat} {j : Int}
    {e : Bool} {dy : Nat} {r : List DRow × WEntry × Nat × Int × Bool}
    (h : glStep thresh t i j e dy = some r) :
    datesOf r.1 = datesOf t ∧ SlotsMonoLe t r.1 ∧
      (∀ a b, getSlot r.1 a b = none → getSlot t a b = none) ∧
      (SlotsLen8 t → SlotsLen8 r.1) ∧
      r.2.1.sentinel = false ∧
      (r.2.2.2.2 = true ↔ ((datesOf r.1).getD r.2.2.1 ⟨1, 1, 1⟩).key < thresh.key) := by
  unfold glStep at h
  cases hm : threemonthdate (datesOf t) ((datesOf t).getD i ⟨1, 1, 1⟩) j e dy with
  | none => rw [hm] at h; cases h
  | some index =>
    rw [hm] at h
    dsimp only at h
    by_cases hj : 1 ≤ j ∧ j ≤ 8
    · rw [if_pos hj] at h
      obtain rfl : _ = r := Option.some_inj.mp h
      refine ⟨datesOf_setSlot t i j.toNat (some index), ?_, ?_, ?_, rfl, ?_⟩
      · intro a b hab
        rcases getSlot_setSlot_or t i j.toNat index a b with h2 | h2 <;> rw [h2] <;> simp_all
      · intro a b hab
        rcases getSlot_setSlot_or t i j.toNat index a b with h2 | h2
        · rw [← h2]; exact hab
        · rw [h2] at hab; cases hab
      · exact fun h8 => slotsLen8_setSlot h8 i j.toNat (some index)
      · simp only [decide_eq_true_eq]
    · rw [if_neg hj] at h; cases h

theorem glPick_inl_spec {thresh : Date} {t t2 : List DRow} {ws : List WEntry}
    (h : glPick thresh t = .inl (t2, ws)) :
    datesOf t2 = datesOf t ∧ SlotsMonoLe t t2 ∧
      (∀ a b, getSlot t2 a b = none → getSlot t a b = none) ∧
      (SlotsLen8 t → SlotsLen8 t2) ∧
      (SortedKeys (datesOf t) →
        ∀ k, k < t2.length → thresh.key ≤ ((datesOf t2).getD k ⟨1, 1, 1⟩).key →
          getSlot t2 k 1 ≠ none) ∧
      (∀ w ∈ ws, w.sentinel = true → getSlot t w.row 1 = none) ∧
      ((ws.filter fun w => w.sentinel).map (fun w => w.row)).Nodup := by
  unfold glPick at h
  cases hf : frontier t with
  | none =>
    rw [hf] at h
    dsimp only at h
    simp only [Sum.inl.injEq, Prod.mk.injEq] at h
    obtain ⟨h1, h2⟩ := h
    subst h1
    subst h2
    refine ⟨rfl, fun a b hab => hab, fun a b hab => hab, id, ?_, by simp, by simp⟩
    intro _ k hk _
    exact frontier_eq_none hf k hk
  | some i =>
    rw [hf] at h
    dsimp only at h
    obtain ⟨hilen, hunset, hlast⟩ := frontier_eq_some hf
    by_cases hg : ((datesOf t).getD i ⟨1, 1, 1⟩).key < thresh.key
    · rw [if_pos hg] at h
      simp only [Sum.inl.injEq, Prod.mk.injEq] at h
      obtain ⟨h1, h2⟩ := h
      subst h1
      subst h2
      have hor : ∀ a b,
          getSlot (if check_EndOfM (datesOf t) i = true then setSlot t i 1 (some 0) else t) a b
            = getSlot t a b ∨
          getSlot (if check_EndOfM (datesOf t) i = true then setSlot t i 1 (some 0) else t) a b
            = some 0 := by
        intro a b
        by_cases he : check_EndOfM (datesOf t) i = true
        · rw [if_pos he]; exact getSlot_setSlot_or t i 1 0 a b
        · rw [if_neg he]; left; rfl
      have hback : ∀ a b,
          getSlot (if check_EndOfM (datesOf t) i = true then setSlot t i 1 (some 0) else t) a b
            = none → getSlot t a b = none := by
        intro a b hab
        rcases hor a b with h2 | h2
        · rw [← h2]; exact hab
        · rw [h2] at hab; cases hab
      have hdates : datesOf (if check_EndOfM (datesOf t) i = true then setSlot t i 1 (some 0) else t)
          = datesOf t := by
        by_cases he : check_EndOfM (datesOf t) i = true
        · rw [if_pos he]; exact datesOf_setSlot t i 1 (some 0)
        · rw [if_neg he]
      have hlen : (if check_EndOfM (datesOf t) i = true then setSlot t i 1 (some 0) else t).length
          = t.length := by
        have := congrArg List.length hdates
        simpa [datesOf] using this
      refine ⟨hdates, ?_, hback, ?_, ?_, ?_, ?_⟩
      · intro a b hab
        rcases hor a b with h2 | h2 <;> rw [h2] <;> simp_all
      · intro h8
        by_cases he : check_EndOfM (datesOf t) i = true
        · rw [if_pos he]; exact slotsLen8_setSlot h8 i 1 (some 0)
        · rw [if_neg he]; exact h8
      · intro hsorted k hk hkey
        rw [hlen] at hk
        rw [hdates] at hkey
        intro hnone
        have hknone : getSlot t k 1 = none := hback k 1 hnone
        rcases lt_trichotomy k i with hki | hki | hki
        · have := hsorted i (by rw [datesOf_length]; exact hilen) k hki
          omega
        · subst hki
          omega
        · exact hlast k hki hk hknone
      · intro w hw
        by_cases he : check_EndOfM (datesOf t) i = true
        · rw [if_pos he] at hw
          rcases List.mem_singleton.mp hw with rfl
          intro _
          exact hunset
        · rw [if_neg he] at hw
          cases hw
      · by_cases he : check_EndOfM (datesOf t) i = true
        · rw [if_pos he]; simp
        · rw [if_neg he]; simp
    · rw [if_neg hg] at h
      cases h

theorem glPick_inr_spec {thresh : Date} {t t2 : List DRow} {ws : List WEntry}
    {i : Nat} {j : Int} {e : Bool} {dy : Nat}
    (h : glPick thresh t = .inr (t2, ws, i, j, e, dy)) :
    datesOf t2 = datesOf t ∧ SlotsMonoLe t t2 ∧
      (∀ a b, getSlot t2 a b = none → getSlot t a b = none) ∧
      (SlotsLen8 t → SlotsLen8 t2) ∧
      (∀ w ∈ ws, w.sentinel = true → w.row = i ∧ getSlot t i 1 = none) ∧
      ((ws.filter fun w => w.sentinel).map (fun w => w.row)).Nodup ∧
      (SlotsLen8 t → ∀ w ∈ ws, w.sentinel = true → getSlot t2 i 1 ≠ none) := by
  unfold glPick at h
  cases hf : frontier t with
  | none => rw [hf] at h; cases h
  | some i2 =>
    rw [hf] at h
    dsimp only at h
    obtain ⟨hilen, hunset, hlast⟩ := frontier_eq_some hf
    by_cases hg : ((datesOf t).getD i2 ⟨1, 1, 1⟩).key < thresh.key
    · rw [if_pos hg] at h; cases h
    · rw [if_neg hg] at h
      simp only [Sum.inr.injEq, Prod.mk.injEq] at h
      obtain ⟨h1, h2, h3, -, -, -⟩ := h
      rw [h3] at hunset hilen h1 h2
      by_cases he : check_EndOfM (datesOf t) i = true
      · rw [if_pos he] at h1 h2
        subst h1
        subst h2
        refine ⟨datesOf_setSlot t i 1 (some 0), ?_, ?_, ?_, ?_, ?_, ?_⟩
        · intro a b hab
          rcases getSlot_setSlot_or t i 1 0 a b with hh | hh <;> rw [hh] <;> simp_all
        · intro a b hab
          rcases getSlot_setSlot_or t i 1 0 a b with hh | hh
          · rw [← hh]; exact hab
          · rw [hh] at hab; cases hab
        · exact fun h8 => slotsLen8_setSlot h8 i 1 (some 0)
        · intro w hw _
          rcases List.mem_singleton.mp hw with rfl
          exact ⟨rfl, hunset⟩
        · simp
        · intro h8 w hw _
          rw [getSlot_setSlot_self (some 0) hilen (by omega) (by omega) h8]
          simp
      · rw [if_neg he] at h1 h2
        subst h1
        subst h2
        refine ⟨rfl, fun a b hab => hab, fun a b hab => hab, id, ?_, by simp, ?_⟩
        · intro w hw
          cases hw
        · intro _ w hw
          cases hw




theorem glLoopW_master (fuel : Nat) : ∀ (thresh : Date) (t : List DRow) (i : Nat) (j : Int)
    (e : Bool) (dy : Nat) (acc : List WEntry) (t2 : List DRow) (ws : List WEntry),
    glLoopW fuel thresh t i j e dy acc = some (t2, ws) →
    datesOf t2 = datesOf t ∧ SlotsMonoLe t t2 ∧
      (∀ a b, getSlot t2 a b = none → getSlot t a b = none) ∧
      (SlotsLen8 t → SlotsLen8 t2) ∧
      (SortedKeys (datesOf t) → ∀ k, k < t2.length →
        thresh.key ≤ ((datesOf t2).getD k ⟨1, 1, 1⟩).key → getSlot t2 k 1 ≠ none) ∧
      (SlotsLen8 t → ∃ nw, ws = acc ++ nw ∧
        (∀ w ∈ nw, w.sentinel = true → getSlot t w.row 1 = none) ∧
        ((nw.filter fun w => w.sentinel).map fun w => w.row).Nodup) := by
  induction fuel with
  | zero => intro thresh t i j e dy acc t2 ws h; cases h
  | succ f ih =>
    intro thresh t i j e dy acc t2 ws h
    unfold glLoopW at h
    cases hs : glStep thresh t i j e dy with
    | none => rw [hs] at h; cases h
    | some r =>
      obtain ⟨t1, w, index, j2, below⟩ := r
      rw [hs] at h
      dsimp only at h
      obtain ⟨hd1x, hm1x, hb1x, hl1x, hsent1x, -⟩ := glStep_some_spec hs
      have hd1 : datesOf t1 = datesOf t := hd1x
      have hm1 : SlotsMonoLe t t1 := hm1x
      have hb1 : ∀ a b, getSlot t1 a b = none → getSlot t a b = none := hb1x
      have hl1 : SlotsLen8 t → SlotsLen8 t1 := hl1x
      have hwf : w.sentinel = false := hsent1x
      cases below with
      | false =>
        simp only [Bool.false_eq_true, if_false] at h
        obtain ⟨hd2, hm2, hb2, hl2, hpost2, hnod2⟩ :=
          ih thresh t1 index j2 e dy (acc ++ [w]) t2 ws h
        refine ⟨hd2.trans hd1, ?_, ?_, ?_, ?_, ?_⟩
        · exact fun a b hab => hm2 a b (hm1 a b hab)
        · exact fun a b hab => hb1 a b (hb2 a b hab)
        · exact fun h8 => hl2 (hl1 h8)
        · intro hsort
          exact hpost2 (by rw [hd1]; exact hsort)
        · intro h8
          obtain ⟨nw, hws, hnone, hnd⟩ := hnod2 (hl1 h8)
          refine ⟨w :: nw, ?_, ?_, ?_⟩
          · rw [hws, List.append_assoc]; rfl
          · intro x hx hxs
            rcases List.mem_cons.mp hx with rfl | hx2
            · rw [hwf] at hxs; cases hxs
            · exact hb1 x.row 1 (hnone x hx2 hxs)
          · rw [List.filter_cons_of_neg (by simp [hwf])]
            exact hnd
      | true =>
        simp only [if_true] at h
        cases hp : glPick thresh t1 with
        | inl p =>
          obtain ⟨t2x, wsx⟩ := p
          rw [hp] at h
          dsimp only at h
          have h' := Option.some_inj.mp h
          obtain ⟨rfl, rfl⟩ : t2x = t2 ∧ (acc ++ [w]) ++ wsx = ws :=
            ⟨congrArg Prod.fst h', congrArg Prod.snd h'⟩
          obtain ⟨hdp, hmp, hbp, hlp, hpostp, hsentp, hndp⟩ := glPick_inl_spec hp
          refine ⟨hdp.trans hd1, ?_, ?_, ?_, ?_, ?_⟩
          · exact fun a b hab => hmp a b (hm1 a b hab)
          · exact fun a b hab => hb1 a b (hbp a b hab)
          · exact fun h8 => hlp (hl1 h8)
          · intro hsort
            exact hpostp (by rw [hd1]; exact hsort)
          · intro h8
            refine ⟨w :: wsx, by rw [List.append_assoc]; rfl, ?_, ?_⟩
            · intro x hx hxs
              rcases List.mem_cons.mp hx with rfl | hx2
              · rw [hwf] at hxs; cases hxs
              · exact hb1 x.row 1 (hsentp x hx2 hxs)
            · rw [List.filter_cons_of_neg (by simp [hwf])]
              exact hndp
        | inr p =>
          obtain ⟨t2x, wsx, i2, j3, e2, dy2⟩ := p
          rw [hp] at h
          dsimp only at h
          obtain ⟨hdpx, hmpx, hbpx, hlpx, hsentpx, hndpx, hsetpx⟩ := glPick_inr_spec hp
          have hdp : datesOf t2x = datesOf t1 := hdpx
          have hmp : SlotsMonoLe t1 t2x := hmpx
          have hbp : ∀ a b, getSlot t2x a b = none → getSlot t1 a b = none := hbpx
          have hlp : SlotsLen8 t1 → SlotsLen8 t2x := hlpx
          have hsentp : ∀ x ∈ wsx, x.sentinel = true → x.row = i2 ∧ getSlot t1 i2 1 = none :=
            hsentpx
          have hndp : ((wsx.filter fun x => x.sentinel).map fun x => x.row).Nodup := hndpx
          have hsetp : SlotsLen8 t1 → ∀ x ∈ wsx, x.sentinel = true →
              getSlot t2x i2 1 ≠ none := hsetpx
          obtain ⟨hd2, hm2, hb2, hl2, hpost2, hnod2⟩ :=
            ih thresh t2x i2 j3 e2 dy2 ((acc ++ [w]) ++ wsx) t2 ws h
          refine ⟨(hd2.trans hdp).trans hd1, ?_, ?_, ?_, ?_, ?_⟩
          · exact fun a b hab => hm2 a b (hmp a b (hm1 a b hab))
          · exact fun a b hab => hb1 a b (hbp a b (hb2 a b hab))
          · exact fun h8 => hl2 (hlp (hl1 h8))
          · intro hsort
            exact hpost2 (by rw [hdp, hd1]; exact hsort)
          · intro h8
            obtain ⟨nw, hws, hnone, hnd⟩ := hnod2 (hlp (hl1 h8))
            refine ⟨(w :: wsx) ++ nw, ?_, ?_, ?_⟩
            · rw [hws]
              simp [List.append_assoc]
            · intro x hx hxs
              rcases List.mem_append.mp hx with hx2 | hx2
              · rcases List.mem_cons.mp hx2 with rfl | hx3
                · rw [hwf] at hxs; cases hxs
                · have hrow := (hsentp x hx3 hxs).1
                  rw [hrow]
                  exact hb1 i2 1 (hsentp x hx3 hxs).2
              · exact hb1 x.row 1 (hbp x.row 1 (hnone x hx2 hxs))
            · rw [List.filter_append, List.filter_cons_of_neg (by simp [hwf]),
                List.map_append, List.nodup_append]
              refine ⟨hndp, hnd, ?_⟩
              intro a ha hbm
              obtain ⟨x, hxmem, hxrow⟩ := List.mem_map.mp ha
              obtain ⟨y, hymem, hyrow⟩ := List.mem_map.mp hbm
              obtain ⟨hxm, hxs⟩ := List.mem_filter.mp hxmem
              obtain ⟨hym, hys⟩ := List.mem_filter.mp hymem
              have hxi : x.row = i2 := (hsentp x hxm (by simpa using hxs)).1
              have hset : getSlot t2x i2 1 ≠ none :=
                hsetp (hl1 h8) x hxm (by simpa using hxs)
              have hyn : getSlot t2x y.row 1 = none := hnone y hym (by simpa using hys)
              apply hset
              rw [← hxi, hxrow, ← hyrow]
              exact hyn



theorem glLoopW_eq_chain (fuel : Nat) : ∀ (thresh : Date) (t : List DRow) (i : Nat)
    (j : Int) (e : Bool) (dy : Nat) (acc : List WEntry),
    glLoopW fuel thresh t i j e dy acc =
      match glChainW fuel thresh t i j e dy acc with
      | none => none
      | some r => glOuterW r.2.2.1 thresh r.1 r.2.1 := by
  induction fuel with
  | zero => intro thresh t i j e dy acc; rfl
  | succ f ih =>
    intro thresh t i j e dy acc
    unfold glLoopW glChainW
    cases hs : glStep thresh t i j e dy with
    | none => rfl
    | some r =>
      obtain ⟨t1, w, index, j2, below⟩ := r
      dsimp only
      cases below with
      | true =>
        simp only [if_true]
        rw [glOuterW]
        cases hp : glPick thresh t1 with
        | inl p => rfl
        | inr p =>
          obtain ⟨t2, ws2, i2, j3, e2, dy2⟩ := p
          dsimp only
          rw [ih]
          cases hchain : glChainW f thresh t2 i2 j3 e2 dy2 ((acc ++ [w]) ++ ws2) with
          | none => rfl
          | some r2 => rfl
      | false =>
        simp only [Bool.false_eq_true, if_false]
        rw [ih]
        cases hchain : glChainW f thresh t1 index j2 e dy (acc ++ [w]) with
        | none => rfl
        | some r2 => rfl



theorem generatelistsAtW_eq_builderAtW (thresh : Date) (fuel : Nat) (t : List DRow) :
    generatelistsAtW thresh fuel t = builderAtW thresh fuel t := by
  unfold generatelistsAtW builderAtW
  rw [glOuterW]
  cases hp : glPick thresh t with
  | inl p => rfl
  | inr p =>
    obtain ⟨t2, ws, i, j, e, dy⟩ := p
    dsimp only
    rw [glLoopW_eq_chain]
    simp only [List.nil_append]
    cases hchain : glChainW fuel thresh t2 i j e dy ws with
    | none => rfl
    | some r =>
      obtain ⟨t3, a3, f3⟩ := r
      rfl

theorem generatelistsW_spec {t t2 : List DRow} {ws : List WEntry}
    (h : generatelistsW t = some (t2, ws)) :
    datesOf t2 = datesOf t ∧ SlotsMonoLe t t2 ∧
      (∀ a b, getSlot t2 a b = none → getSlot t a b = none) ∧
      (SlotsLen8 t → SlotsLen8 t2) ∧
      (SortedKeys (datesOf t) → ∀ k, k < t2.length →
        (addMonths 3 (minDateOf t)).key ≤ ((datesOf t2).getD k ⟨1, 1, 1⟩).key →
        getSlot t2 k 1 ≠ none) ∧
      (SlotsLen8 t →
        (∀ w ∈ ws, w.sentinel = true → getSlot t w.row 1 = none) ∧
        ((ws.filter fun w => w.sentinel).map fun w => w.row).Nodup) := by
  unfold generatelistsW generatelistsAtW at h
  cases hp : glPick (addMonths 3 (minDateOf t)) t with
  | inl p =>
    obtain ⟨t2x, wsx⟩ := p
    rw [hp] at h
    dsimp only at h
    have h' := Option.some_inj.mp h
    obtain ⟨rfl, rfl⟩ : t2x = t2 ∧ wsx = ws :=
      ⟨congrArg Prod.fst h', congrArg Prod.snd h'⟩
    obtain ⟨hdp, hmp, hbp, hlp, hpostp, hsentp, hndp⟩ := glPick_inl_spec hp
    exact ⟨hdp, hmp, hbp, hlp, hpostp, fun _ => ⟨hsentp, hndp⟩⟩
  | inr p =>
    obtain ⟨t2x, wsx, i2, j3, e2, dy2⟩ := p
    rw [hp] at h
    dsimp only at h
    obtain ⟨hdpx, hmpx, hbpx, hlpx, hsentpx, hndpx, hsetpx⟩ := glPick_inr_spec hp
    have hdp : datesOf t2x = datesOf t := hdpx
    have hmp : SlotsMonoLe t t2x := hmpx
    have hbp : ∀ a b, getSlot t2x a b = none → getSlot t a b = none := hbpx
    have hlp : SlotsLen8 t → SlotsLen8 t2x := hlpx
    have hsentp : ∀ x ∈ wsx, x.sentinel = true → x.row = i2 ∧ getSlot t i2 1 = none :=
      hsentpx
    have hsetp : SlotsLen8 t → ∀ x ∈ wsx, x.sentinel = true →
        getSlot t2x i2 1 ≠ none := hsetpx
    obtain ⟨hd2, hm2, hb2, hl2, hpost2, hnod2⟩ :=
      glLoopW_master (glFuel t) _ t2x i2 j3 e2 dy2 wsx t2 ws h
    refine ⟨hd2.trans hdp, ?_, ?_, ?_, ?_, ?_⟩
    · exact fun a b hab => hm2 a b (hmp a b hab)
    · exact fun a b hab => hbp a b (hb2 a b hab)
    · exact fun h8 => hl2 (hlp h8)
    · intro hsort
      exact hpost2 (by rw [hdp]; exact hsort)
    · intro h8
      obtain ⟨nw, hws, hnone, hnd⟩ := hnod2 (hlp h8)
      subst hws
      constructor
      · intro x hx hxs
        rcases List.mem_append.mp hx with hx2 | hx2
        · exact (hsentp x hx2 hxs).1 ▸ (hsentp x hx2 hxs).2
        · exact hbp x.row 1 (hnone x hx2 hxs)
      · rw [List.filter_append, List.map_append, List.nodup_append]
        refine ⟨hndpx, hnd, ?_⟩
        intro a ha hbm
        obtain ⟨x, hxmem, hxrow⟩ := List.mem_map.mp ha
        obtain ⟨y, hymem, hyrow⟩ := List.mem_map.mp hbm
        obtain ⟨hxm, hxs⟩ := List.mem_filter.mp hxmem
        obtain ⟨hym, hys⟩ := List.mem_filter.mp hymem
        have hxi : x.row = i2 := (hsentp x hxm (by simpa using hxs)).1
        have hset : getSlot t2x i2 1 ≠ none :=
          hsetp h8 x hxm (by simpa using hxs)
        have hyn : getSlot t2x y.row 1 = none := hnone y hym (by simpa using hys)
        apply hset
        rw [← hxi, hxrow, ← hyrow]
        exact hyn



set_option maxRecDepth 4000

theorem foldl_lastSat_none_of {p : Nat → Prop} [DecidablePred p] (n : Nat)
    (h : ∀ k, k < n → ¬ p k) :
    (List.range n).foldl (fun acc k => if p k then some k else acc) none = none := by
  induction n with
  | zero => rfl
  | succ m ih =>
    rw [List.range_succ, List.foldl_append, List.foldl_cons, List.foldl_nil]
    rw [ih (fun k hk => h k (by omega)), if_neg (h m (Nat.lt_succ_self m))]

/-! ## C2: the chain-termination threshold -/

/-- C2 fails as stated: the chain-termination threshold is the earliest
date plus three MONTHS (utility_functions.py:252), not three years.  On
the 1980 monthly table the builder shape run with a 3-year threshold
stops after a single sentinel write while `generatelists` fills `V8`
down the table. -/
theorem C2_counterexample :
    generatelists tableMonthly12 ≠
      builderAt (addYears 3 (minDateOf tableMonthly12)) (glFuel tableMonthly12)
        tableMonthly12 := by
  unfold builderAt
  rw [← generatelistsAtW_eq_builderAtW]
  decide

/-- C2 amended: the builder IS the chain/restart loop of the claim, at
threshold `min + 3 months`: the flat `while` loop equals the structured
chains-until-anchor-below-threshold loop at every threshold and fuel;
`generatelists` instantiates it at `min + 3 months`; the chain step's
termination flag is exactly "found anchor's date < threshold"; and on a
sorted table the frontier restart row is the most recent row with `V1`
unset. -/
theorem C2_amended :
    (∀ thresh fuel t, generatelistsAtW thresh fuel t = builderAtW thresh fuel t)
    ∧ (∀ t, generatelistsW t = builderAtW (addMonths 3 (minDateOf t)) (glFuel t) t)
    ∧ (∀ (thresh : Date) (t : List DRow) (i : Nat) (j : Int) (e : Bool) (dy : Nat) r,
        glStep thresh t i j e dy = some r →
        (r.2.2.2.2 = true ↔ ((datesOf r.1).getD r.2.2.1 ⟨1, 1, 1⟩).key < thresh.key))
    ∧ (∀ t i, SortedKeys (datesOf t) → frontier t = some i →
        i < t.length ∧ getSlot t i 1 = none ∧
        ∀ k, k < t.length → getSlot t k 1 = none →
          ((datesOf t).getD k ⟨1, 1, 1⟩).key ≤ ((datesOf t).getD i ⟨1, 1, 1⟩).key) := by
  refine ⟨generatelistsAtW_eq_builderAtW, ?_, ?_, ?_⟩
  · intro t
    exact generatelistsAtW_eq_builderAtW _ _ t
  · intro thresh t i j e dy r h
    exact (glStep_some_spec h).2.2.2.2.2
  · intro t i hsort hf
    obtain ⟨hilen, hunset, hlast⟩ := frontier_eq_some hf
    refine ⟨hilen, hunset, ?_⟩
    intro k hk hknone
    rcases lt_trichotomy k i with hki | hki | hki
    · exact le_of_lt (hsort i (by rw [datesOf_length]; exact hilen) k hki)
    · subst hki; exact le_refl _
    · exact absurd hknone (hlast k hki hk)

/-- Witness for C2 at the sparse table: the frontier picks row 3, whose
slot `V1` is unset. -/
theorem C2_amended_witness :
    frontier tableSparse = some 3 ∧ 3 < tableSparse.length ∧
      getSlot tableSparse 3 1 = none := by
  have h := (C2_amended).2.2.2 tableSparse 3 (by decide) (by decide)
  exact ⟨by decide, h.1, h.2.1⟩

/-! ## C3: population of the walked slots -/

/-- C3 fails as stated: on the sparse table the last row lies three
years past the earliest date, the builder succeeds, yet the history walk
from that row dies on an unset slot and no 13-row window exists. -/
theorem C3_counterexample :
    SortedKeys (datesOf tableSparse) ∧ (∀ d ∈ datesOf tableSparse, d.Valid) ∧
      (generatelists tableSparse).isSome = true ∧
      (addYears 3 (minDateOf tableSparse)).key ≤
        ((datesOf ((generatelists tableSparse).getD [])).getD 3 ⟨1, 1, 1⟩).key ∧
      history 3 mergedSparse = none :=
  ⟨by decide, by decide, by decide, by decide, by decide⟩

theorem historyGoW_some_length (t : List MRow) (dayt : Nat) (e : Bool) :
    ∀ (c oldindex : Nat) (j : Int) (acc : List (Date × List ℚ)) (rds : List (Nat × Nat))
      (w : List (Date × List ℚ)) (rds2 : List (Nat × Nat)),
      historyGoW t dayt e c oldindex j acc rds = (some w, rds2) →
      w.length = acc.length + c := by
  intro c
  induction c with
  | zero =>
    intro oldindex j acc rds w rds2 h
    have h1 : some acc = some w := congrArg Prod.fst h
    rw [← Option.some_inj.mp h1]
    omega
  | succ c ih =>
    intro oldindex j acc rds w rds2 h
    unfold historyGoW at h
    by_cases hj : 1 ≤ j ∧ j ≤ 8
    · rw [if_pos hj] at h
      cases hm : mslot t oldindex j.toNat with
      | none =>
        rw [hm] at h
        have h1 : (none : Option (List (Date × List ℚ))) = some w := congrArg Prod.fst h
        cases h1
      | some index =>
        rw [hm] at h
        dsimp only at h
        by_cases hl : index < t.length
        · rw [if_pos hl] at h
          have := ih index _ _ _ w rds2 h
          simp only [List.length_append, List.length_cons, List.length_nil] at this
          omega
        · rw [if_neg hl] at h
          have h1 : (none : Option (List (Date × List ℚ))) = some w := congrArg Prod.fst h
          cases h1
    · rw [if_neg hj] at h
      have h1 : (none : Option (List (Date × List ℚ))) = some w := congrArg Prod.fst h
      cases h1

/-- C3 amended: a successful history walk yields EXACTLY 13 rows (there
is no default-padded window); after a successful builder run on a sorted
table every row dated at or after `min + 3 months` has slot `V1`
populated — and `min + 3 months` is never after `min + 3 years`, so this
covers every row of the claim's evaluation range.  The claim's stronger
"transitively every slot of the 12-step walk" part is refuted by the
counterexample. -/
theorem C3_amended :
    (∀ i t w, history i t = some w → w.length = 13)
    ∧ (∀ t t2, SortedKeys (datesOf t) → generatelists t = some t2 →
        ∀ k, k < t2.length →
          (addMonths 3 (minDateOf t)).key ≤ ((datesOf t2).getD k ⟨1, 1, 1⟩).key →
          getSlot t2 k 1 ≠ none)
    ∧ (∀ d : Date, d.Valid → (addMonths 3 d).key ≤ (addYears 3 d).key) := by
  refine ⟨?_, ?_, ?_⟩
  · intro i t w h
    unfold history at h
    have hh : historyW i t = (some w, (historyW i t).2) := by
      rw [← h]
    unfold historyW at hh
    dsimp only at hh
    have := historyGoW_some_length t _ _ 12 i _ _ _ w _ hh
    simpa using this
  · intro t t2 hsort h
    unfold generatelists at h
    cases hw : generatelistsW t with
    | none => rw [hw] at h; cases h
    | some p =>
      obtain ⟨t2x, ws⟩ := p
      rw [hw] at h
      have ht2 : t2x = t2 := Option.some_inj.mp h
      subst ht2
      exact (generatelistsW_spec hw).2.2.2.2.1 hsort
  · intro d hv
    obtain ⟨hy1, hm1, hm12, hd1, hdle⟩ := hv
    unfold addMonths addYears monthIndex ofMonthIndexClamp Date.key
    simp only
    have hb1 : 1 ≤ daysInMonth ((12 * d.y + (d.m - 1) + 3) / 12) ((12 * d.y + (d.m - 1) + 3) % 12 + 1) :=
      daysInMonth_ge_one _ _
    have hb2 : daysInMonth ((12 * d.y + (d.m - 1) + 3) / 12) ((12 * d.y + (d.m - 1) + 3) % 12 + 1) ≤ 31 :=
      daysInMonth_le_31 _ _
    have hb3 : 1 ≤ daysInMonth ((12 * d.y + (d.m - 1) + 12 * 3) / 12) ((12 * d.y + (d.m - 1) + 12 * 3) % 12 + 1) :=
      daysInMonth_ge_one _ _
    have hb4 : daysInMonth ((12 * d.y + (d.m - 1) + 12 * 3) / 12) ((12 * d.y + (d.m - 1) + 12 * 3) % 12 + 1) ≤ 31 :=
      daysInMonth_le_31 _ _
    omega

/-- Witness for C3 at the sparse table: the builder populated `V1` of
row 3, the only row at or above the 3-month threshold. -/
theorem C3_amended_witness :
    getSlot ([⟨⟨1977, 1, 5⟩, emptySlots⟩, ⟨⟨1977, 1, 10⟩, emptySlots⟩,
      ⟨⟨1977, 1, 15⟩, emptySlots⟩,
      ⟨⟨1980, 1, 15⟩, [some 2, none, none, none, none, none, none, none]⟩] : List DRow)
      3 1 ≠ none :=
  (C3_amended).2.1 tableSparse _ (by decide) (by decide) 3 (by decide) (by decide)

/-! ## C6: cache write discipline -/

/-- C6 fails as stated: on `tableOverwrite` slot `V8` of row 5
(1980-08-30) is written twice with DIFFERENT values — first 4 (the
normal chain from 1980-12-06), then 3 (the end-of-month chain from
1980-11-30) — and the sentinel written once into `V1` of row 1
(1980-02-06) is later consumed as a row pointer by the history walk
from row 7. -/
theorem C6_counterexample :
    ((generatelistsW tableOverwrite).map fun p =>
        (p.2.filter fun w => w.row == 5 && w.slot == 8).map fun w => w.val) = some [4, 3]
    ∧ ((generatelistsW tableOverwrite).map fun p =>
        (p.2.filter fun w => w.row == 1 && w.slot == 1).map fun w => w.sentinel) = some [true]
    ∧ (historyW 7 mergedOverwrite).2.contains (1, 1) = true :=
  ⟨by decide, by decide, by decide⟩

/-- C6 amended: slot definedness is monotone (a populated slot is never
returned to the unset state, though later chains may rewrite its value
rather than stop), and the sentinel is written at most once per row and
only into a previously-unset slot 1; chain steps read no slot at all
(visible from `glStep`, whose lookup consumes only the date column). -/
theorem C6_amended (t t2 : List DRow) (ws : List WEntry) (h8 : SlotsLen8 t)
    (h : generatelistsW t = some (t2, ws)) :
    SlotsMonoLe t t2
    ∧ (∀ w ∈ ws, w.sentinel = true → getSlot t w.row 1 = none)
    ∧ ((ws.filter fun w => w.sentinel).map fun w => w.row).Nodup := by
  obtain ⟨-, hm, -, -, -, hsent⟩ := generatelistsW_spec h
  exact ⟨hm, (hsent h8).1, (hsent h8).2⟩

/-- Witness for C6 at the sparse table, whose single run makes exactly
one non-sentinel write. -/
theorem C6_amended_witness :
    ((([⟨false, 3, 1, 2⟩] : List WEntry).filter fun w => w.sentinel).map
      fun w => w.row).Nodup :=
  (C6_amended tableSparse
    [⟨⟨1977, 1, 5⟩, emptySlots⟩, ⟨⟨1977, 1, 10⟩, emptySlots⟩,
      ⟨⟨1977, 1, 15⟩, emptySlots⟩,
      ⟨⟨1980, 1, 15⟩, [some 2, none, none, none, none, none, none, none]⟩]
    [⟨false, 3, 1, 2⟩] (by decide) (by decide)).2.2

/-! ## C7: idempotence of a second builder run -/

/-- C7 fails as stated: on the 1980 monthly table the first run leaves
two rows with `V1` unset below the threshold; the second run writes the
sentinel into one of them, so the slot contents differ. -/
theorem C7_counterexample :
    (generatelists tableMonthly12).isSome = true ∧
      ((generatelists tableMonthly12).bind generatelists) ≠ generatelists tableMonthly12 :=
  ⟨by decide, by decide⟩

/-- C7 amended: a second run changes nothing provided the first run left
slot `V1` populated in every row (the builder then returns its input
unchanged); in general the second run may add one sentinel, as the
counterexample shows. -/
theorem C7_amended (t : List DRow) (h : ∀ k, k < t.length → getSlot t k 1 ≠ none) :
    generatelists t = some t := by
  have hf : frontier t = none := by
    unfold frontier
    exact foldl_lastSat_none_of t.length h
  unfold generatelists generatelistsW generatelistsAtW glPick
  rw [hf]
  rfl

/-- Witness for C7 at the fully marked table. -/
theorem C7_amended_witness : generatelists tableAllMarked = some tableAllMarked :=
  C7_amended tableAllMarked (by decide)

/-! ## C4: the weighted decomposition -/

theorem addRow_getD {a b : List ℚ} {v : Nat} (ha : v < a.length) (hb : v < b.length) :
    (addRow a b).getD v 0 = a.getD v 0 + b.getD v 0 := by
  unfold addRow
  rw [List.getD_eq_getElem?_getD,
    List.getElem?_eq_getElem (by rw [List.length_zipWith]; omega), List.getElem_zipWith,
    List.getD_eq_getElem?_getD, List.getElem?_eq_getElem ha,
    List.getD_eq_getElem?_getD, List.getElem?_eq_getElem hb]
  rfl

theorem rowMul_getD {a b : List ℚ} {v : Nat} (ha : v < a.length) (hb : v < b.length) :
    (rowMul a b).getD v 0 = a.getD v 0 * b.getD v 0 := by
  unfold rowMul
  rw [List.getD_eq_getElem?_getD,
    List.getElem?_eq_getElem (by rw [List.length_zipWith]; omega), List.getElem_zipWith,
    List.getD_eq_getElem?_getD, List.getElem?_eq_getElem ha,
    List.getD_eq_getElem?_getD, List.getElem?_eq_getElem hb]
  rfl

theorem foldl_addRow_getD {v : Nat} : ∀ (L : List (List ℚ)) (acc : List ℚ),
    v < acc.length → (∀ r ∈ L, v < r.length) →
    (L.foldl addRow acc).getD v 0 = acc.getD v 0 + (L.map fun r => r.getD v 0).sum := by
  intro L
  induction L with
  | nil => intro acc _ _; simp
  | cons x xs ih =>
    intro acc hacc hall
    rw [List.foldl_cons]
    have hx : v < x.length := hall x (List.mem_cons_self x xs)
    have hlen : v < (addRow acc x).length := by
      unfold addRow
      rw [List.length_zipWith]
      omega
    rw [ih (addRow acc x) hlen (fun r hr => hall r (List.mem_cons_of_mem x hr)),
      addRow_getD hacc hx]
    simp only [List.map_cons, List.sum_cons]
    ring

theorem colSum_getD {L : List (List ℚ)} {v : Nat} (h : ∀ r ∈ L, v < r.length) :
    (colSum L).getD v 0 = (L.map fun r => r.getD v 0).sum := by
  cases L with
  | nil => simp [colSum]
  | cons x xs =>
    unfold colSum
    rw [foldl_addRow_getD xs x (h x (List.mem_cons_self x xs))
      (fun r hr => h r (List.mem_cons_of_mem x hr))]
    simp

theorem weightedContrib_getD (hist : List (Date × List ℚ)) (mult : List (List ℚ))
    (k v : Nat) (hk1 : k ≤ hist.length) (hk2 : k ≤ mult.length)
    (hr : ∀ r ∈ hist, r.2.length = 7) (hm : ∀ r ∈ mult, r.length = 7) (hv : v < 7) :
    (weightedContrib hist mult k).getD v 0 =
      ((List.range k).map fun kk =>
        ((hist.getD kk (⟨⟨1, 1, 1⟩, []⟩ : Date × List ℚ)).2.getD v 0) *
          ((mult.getD kk []).getD v 0)).sum := by
  unfold weightedContrib
  have hA : ((hist.take k).map Prod.snd).length = k := by
    rw [List.length_map, List.length_take]
    omega
  have hB : (mult.take k).length = k := by
    rw [List.length_take]
    omega
  have hcol : ∀ r ∈ List.zipWith rowMul ((hist.take k).map Prod.snd) (mult.take k),
      v < r.length := by
    intro r hrm
    obtain ⟨idx, hidx, hval⟩ := List.mem_iff_getElem.mp hrm
    rw [List.getElem_zipWith] at hval
    rw [← hval]
    unfold rowMul
    rw [List.length_zipWith]
    have hlt : idx < k := by
      rw [List.length_zipWith, hA, hB] at hidx
      omega
    have hb1 : idx < ((hist.take k).map Prod.snd).length := by omega
    have hb2 : idx < (mult.take k).length := by omega
    have h1 : (((hist.take k).map Prod.snd).get ⟨idx, hb1⟩).length = 7 := by
      rw [List.get_eq_getElem, List.getElem_map, List.getElem_take]
      exact hr _ (List.getElem_mem _)
    have h2 : ((mult.take k).get ⟨idx, hb2⟩).length = 7 := by
      rw [List.get_eq_getElem, List.getElem_take]
      exact hm _ (List.getElem_mem _)
    rw [List.get_eq_getElem] at h1 h2
    rw [h1, h2]
    omega
  rw [colSum_getD hcol]
  congr 1
  apply List.ext_getElem
  · rw [List.length_map, List.length_zipWith, hA, hB, List.length_map, List.length_range]
    omega
  · intro kk hkk1 hkk2
    rw [List.length_map, List.length_zipWith, hA, hB] at hkk1
    have hkkh : kk < hist.length := by omega
    have hkkm : kk < mult.length := by omega
    rw [List.getElem_map, List.getElem_map, List.getElem_range, List.getElem_zipWith]
    have hc1 : kk < ((hist.take k).map Prod.snd).length := by rw [hA]; omega
    have hc2 : kk < (mult.take k).length := by rw [hB]; omega
    have e1 : ((hist.take k).map Prod.snd).get ⟨kk, hc1⟩ =
        (hist.getD kk (⟨⟨1, 1, 1⟩, []⟩ : Date × List ℚ)).2 := by
      rw [List.get_eq_getElem, List.getElem_map, List.getElem_take,
        List.getD_eq_getElem?_getD, List.getElem?_eq_getElem hkkh]
      rfl
    have e2 : (mult.take k).get ⟨kk, hc2⟩ = mult.getD kk [] := by
      rw [List.get_eq_getElem, List.getElem_take, List.getD_eq_getElem?_getD,
        List.getElem?_eq_getElem hkkm]
      rfl
    rw [List.get_eq_getElem] at e1 e2
    have hl1 : v < (hist.getD kk (⟨⟨1, 1, 1⟩, []⟩ : Date × List ℚ)).2.length := by
      rw [List.getD_eq_getElem?_getD, List.getElem?_eq_getElem hkkh]
      have := hr _ (List.getElem_mem hkkh)
      simp only [Option.getD_some]
      omega
    have hl2 : v < (mult.getD kk []).length := by
      rw [List.getD_eq_getElem?_getD, List.getElem?_eq_getElem hkkm]
      have := hm _ (List.getElem_mem hkkm)
      simp only [Option.getD_some]
      omega
    rw [e1, e2, rowMul_getD hl1 hl2]

theorem wcTenth (hist : List (Date × List ℚ))
    (h : hist.map Prod.snd = List.replicate 13 ([1, 0, 0, 0, 0, 0, 0] : List ℚ)) :
    fciVal (weightedContrib hist multTenth 12) = -(6 / 5 : ℚ) ∧
      fciVal (weightedContrib hist multTenth 4) = -(2 / 5 : ℚ) := by
  have h12 : (hist.take 12).map Prod.snd =
      List.replicate 12 ([1, 0, 0, 0, 0, 0, 0] : List ℚ) := by
    rw [List.map_take, h, List.take_replicate]
    norm_num
  have h4 : (hist.take 4).map Prod.snd =
      List.replicate 4 ([1, 0, 0, 0, 0, 0, 0] : List ℚ) := by
    rw [List.map_take, h, List.take_replicate]
    norm_num
  constructor
  · unfold weightedContrib
    rw [h12]
    unfold multTenth
    norm_num [List.replicate, List.take, List.zipWith, rowMul, colSum, addRow,
      fciVal, List.foldl, List.sum]
  · unfold weightedContrib
    rw [h4]
    unfold multTenth
    norm_num [List.replicate, List.take, List.zipWith, rowMul, colSum, addRow,
      fciVal, List.foldl, List.sum]

theorem monthly46_windows : ∀ i < 46, 36 ≤ i →
    (addYears 3 ((colMinDate (mdatesOf mergedMonthly46)).getD ⟨1, 1, 1⟩)).key ≤
        ((mdatesOf mergedMonthly46).getD i ⟨1, 1, 1⟩).key
      ∧ ((history i mergedMonthly46).map fun l => l.map Prod.snd) =
        some (List.replicate 13 ([1, 0, 0, 0, 0, 0, 0] : List ℚ)) := by
  decide

/-- C4: for every 13-row history window and 12-by-7 weight matrix, the 3-year
per-variable contributions equal the sum over lags 0..11 of the element-wise
product of window row k with weight row k (window row 12 excluded), the 1-year
contributions use lags 0..3, each horizon's published index value is -1 times
the sum of its per-variable contributions, and in the end-to-end example (a
monthly series starting 1980-01-31 with a constant quarterly difference of 1 in
a single variable and all weights 1/10) every qualifying date, namely every row
at or past the minimum date plus three years, yields a 3-year index of -6/5 and
a 1-year index of -2/5. -/
theorem C4_weighted_decomposition (hist : List (Date × List ℚ))
    (mult : List (List ℚ)) (hh : hist.length = 13) (hmm : mult.length = 12)
    (hr : ∀ r ∈ hist, r.2.length = 7) (hm7 : ∀ r ∈ mult, r.length = 7) :
    (∀ v, v < 7 →
      (weightedContrib hist mult 12).getD v 0 =
        ((List.range 12).map fun kk =>
          ((hist.getD kk (⟨⟨1, 1, 1⟩, []⟩ : Date × List ℚ)).2.getD v 0) *
            ((mult.getD kk []).getD v 0)).sum
      ∧ (weightedContrib hist mult 4).getD v 0 =
        ((List.range 4).map fun kk =>
          ((hist.getD kk (⟨⟨1, 1, 1⟩, []⟩ : Date × List ℚ)).2.getD v 0) *
            ((mult.getD kk []).getD v 0)).sum)
    ∧ (∀ c : List ℚ, fciVal c = -(c.sum))
    ∧ (∀ i, 36 ≤ i → i < 46 →
        (addYears 3 ((colMinDate (mdatesOf mergedMonthly46)).getD ⟨1, 1, 1⟩)).key ≤
          ((mdatesOf mergedMonthly46).getD i ⟨1, 1, 1⟩).key
        ∧ (calculate_fci_for_row i mergedMonthly46 multTenth).map
            (fun p => (fciVal p.1, fciVal p.2)) = some (-(6 / 5 : ℚ), -(2 / 5 : ℚ))) := by
  refine ⟨?_, ?_, ?_⟩
  · intro v hv
    exact ⟨weightedContrib_getD hist mult 12 v (by omega) (by omega) hr hm7 hv,
      weightedContrib_getD hist mult 4 v (by omega) (by omega) hr hm7 hv⟩
  · intro c
    unfold fciVal
    ring
  · intro i h36 h46
    obtain ⟨hkey, hwin⟩ := monthly46_windows i h46 h36
    refine ⟨hkey, ?_⟩
    unfold calculate_fci_for_row
    cases hh2 : history i mergedMonthly46 with
    | none => rw [hh2] at hwin; simp at hwin
    | some w =>
      rw [hh2] at hwin
      simp only [Option.map_some'] at hwin ⊢
      have hsnd : w.map Prod.snd = List.replicate 13 ([1, 0, 0, 0, 0, 0, 0] : List ℚ) :=
        Option.some_inj.mp hwin
      obtain ⟨e3, e1⟩ := wcTenth w hsnd
      rw [e3, e1]

/-- Witness for C4 at the concrete window of constant rows and at row 36 of the
end-to-end example. -/
theorem C4_weighted_decomposition_witness :
    (calculate_fci_for_row 36 mergedMonthly46 multTenth).map
        (fun p => (fciVal p.1, fciVal p.2)) = some (-(6 / 5 : ℚ), -(2 / 5 : ℚ)) :=
  ((C4_weighted_decomposition
      (List.replicate 13 (⟨⟨1980, 1, 31⟩, [1, 0, 0, 0, 0, 0, 0]⟩ : Date × List ℚ))
      multTenth (by decide) (by decide) (by decide) (by decide)).2.2 36
      (by decide) (by decide)).2

/-! ## C10: the input-preparation frame -/

theorem normalizeDates_length (ds : List Date) : (normalizeDates ds).length = ds.length := by
  unfold normalizeDates
  split <;> simp

theorem filter_date_eq : ∀ (inp : List InRow), (inp.map InRow.date).Nodup →
    ∀ k, k < inp.length →
    (inp.filter fun x => x.date == (inp.getD k defaultInRow).date) =
      [inp.getD k defaultInRow] := by
  intro inp
  induction inp with
  | nil => intro _ k hk; simp at hk
  | cons a tl ih =>
    intro hnd k hk
    rw [List.map_cons, List.nodup_cons] at hnd
    cases k with
    | zero =>
      rw [List.getD_cons_zero, List.filter_cons]
      simp only [beq_self_eq_true, if_true]
      have htl : tl.filter (fun x => x.date == a.date) = [] := by
        apply List.filter_eq_nil_iff.mpr
        intro x hx hbeq
        exact hnd.1 (by rw [← eq_of_beq hbeq]; exact List.mem_map_of_mem InRow.date hx)
      rw [htl]
    | succ k =>
      rw [List.getD_cons_succ, List.filter_cons]
      have hk2 : k < tl.length := by
        simp only [List.length_cons] at hk
        omega
      have hmem : (tl.getD k defaultInRow).date ∈ tl.map InRow.date := by
        apply List.mem_map_of_mem InRow.date
        rw [List.getD_eq_getElem?_getD, List.getElem?_eq_getElem hk2]
        exact List.getElem_mem hk2
      have hne : ¬(a.date == (tl.getD k defaultInRow).date) = true := by
        intro hbeq
        exact hnd.1 (by rw [eq_of_beq hbeq]; exact hmem)
      rw [if_neg hne]
      exact ih hnd.2 k hk2

theorem flatten_map_singleton :
    ∀ (L : List DRow) (F : DRow → List MRow) (G : Nat → MRow),
    (∀ k, k < L.length → F (L.getD k defaultDRow) = [G k]) →
    (L.map F).flatten = (List.range L.length).map G := by
  intro L
  induction L with
  | nil => intro F G _; rfl
  | cons r tl ih =>
    intro F G h
    rw [List.map_cons, List.flatten_cons]
    have h0 : F r = [G 0] := by
      have h00 := h 0 (by simp)
      rwa [List.getD_cons_zero] at h00
    have hrec : (tl.map F).flatten = (List.range tl.length).map (fun k => G (k + 1)) := by
      apply ih
      intro k hk
      have hks := h (k + 1) (by simp only [List.length_cons]; omega)
      rwa [List.getD_cons_succ] at hks
    rw [h0, hrec, List.length_cons, List.range_succ_eq_map, List.map_cons, List.map_map]
    rfl

theorem zip_dates : ∀ (ds : List Date) (rs : List InRow), rs.length = ds.length →
    (List.zipWith (fun d (r : InRow) => InRow.mk d r.vals) ds rs).map InRow.date = ds := by
  intro ds
  induction ds with
  | nil => intro rs _; rfl
  | cons d ds ih =>
    intro rs hlen
    cases rs with
    | nil => simp at hlen
    | cons r rs =>
      rw [List.zipWith_cons_cons, List.map_cons, ih rs (by simpa using hlen)]

theorem getD_map_date (t : List DRow) (k : Nat) (hk : k < t.length) :
    (datesOf t).getD k ⟨1, 1, 1⟩ = (t.getD k defaultDRow).date := by
  unfold datesOf
  rw [List.getD_eq_getElem?_getD, List.getElem?_eq_getElem (by simpa using hk),
    List.getElem_map, List.getD_eq_getElem?_getD, List.getElem?_eq_getElem hk]
  rfl


/-- C10 counterexample: the two dates of `inputSameMonth` are pairwise
distinct, yet `prepare_inputs` returns four rows for the two input rows. -/
theorem C10_counterexample :
    (inputSameMonth.map InRow.date).Nodup ∧
      (prepare_inputs inputSameMonth).map (fun p => p.1.length) = some 4 ∧
      inputSameMonth.length = 2 :=
  ⟨by decide, by decide, by decide⟩

/-- C10 amended: when the NORMALIZED dates are pairwise distinct, input
preparation returns exactly one row per input row, in order, with the input
row's values and the normalized date. -/
theorem C10_amended (input : List InRow) (out : List MRow) (stored : Bool)
    (orig : Option (List Date))
    (hnd : ((normalizeDates (input.map InRow.date)).map Date.key).Nodup)
    (h : prepare_inputs input = some (out, stored, orig)) :
    out.length = input.length
    ∧ ∀ k, k < input.length →
        (out.getD k defaultMRow).vals = (input.getD k defaultInRow).vals
        ∧ (out.getD k defaultMRow).date =
          (normalizeDates (input.map InRow.date)).getD k ⟨1, 1, 1⟩ := by
  set dates1 : List Date := normalizeDates (input.map InRow.date) with hd1
  set input1 : List InRow :=
    List.zipWith (fun d (r : InRow) => InRow.mk d r.vals) dates1 input with hi1
  have hlen1 : dates1.length = input.length := by
    rw [hd1, normalizeDates_length, List.length_map]
  have hleni : input1.length = input.length := by
    rw [hi1, List.length_zipWith, hlen1]
    omega
  unfold prepare_inputs at h
  dsimp only at h
  rw [← hd1, ← hi1] at h
  cases hg : generatelists (dates1.map fun d => (⟨d, emptySlots⟩ : DRow)) with
  | none => rw [hg] at h; exact absurd h (by simp)
  | some dt2 =>
    rw [hg] at h
    dsimp only at h
    simp only [Option.some.injEq, Prod.mk.injEq] at h
    obtain ⟨hout, hstored, horig⟩ := h
    unfold generatelists at hg
    cases hgw : generatelistsW (dates1.map fun d => (⟨d, emptySlots⟩ : DRow)) with
    | none => rw [hgw] at hg; exact absurd hg (by simp)
    | some p =>
      obtain ⟨t2, ws⟩ := p
      rw [hgw] at hg
      simp only [Option.map_some', Option.some.injEq] at hg
      have hspec := generatelistsW_spec hgw
      have hdt : datesOf (dates1.map fun d => (⟨d, emptySlots⟩ : DRow)) = dates1 := by
        unfold datesOf
        rw [List.map_map]
        exact List.map_id dates1
      have hdates : datesOf dt2 = dates1 := by
        rw [← hg, hspec.1, hdt]
      have hlen2 : dt2.length = input.length := by
        have hc := congrArg List.length hdates
        rw [datesOf_length] at hc
        omega
      have hdatesin : input1.map InRow.date = dates1 := by
        rw [hi1]
        exact zip_dates dates1 input (by omega)
      have hnodup_in : (input1.map InRow.date).Nodup := by
        rw [hdatesin]
        exact List.Nodup.of_map Date.key hnd
      have hin1 : ∀ k, k < input.length → input1.getD k defaultInRow =
          ⟨dates1.getD k ⟨1, 1, 1⟩, (input.getD k defaultInRow).vals⟩ := by
        intro k hk
        have hkd : k < dates1.length := by omega
        rw [hi1, List.getD_eq_getElem?_getD,
          List.getElem?_eq_getElem (by rw [List.length_zipWith]; omega),
          List.getElem_zipWith,
          List.getD_eq_getElem?_getD dates1, List.getElem?_eq_getElem hkd,
          List.getD_eq_getElem?_getD input, List.getElem?_eq_getElem hk]
        rfl
      have hmerge : ∀ k, k < dt2.length →
          (fun r => ((input1.filter fun x => x.date == r.date).map fun x =>
            MRow.mk r.date r.slots x.vals)) (dt2.getD k defaultDRow) =
          [MRow.mk (dates1.getD k ⟨1, 1, 1⟩) ((dt2.getD k defaultDRow).slots)
            ((input1.getD k defaultInRow).vals)] := by
        intro k hk
        dsimp only
        have hkin : k < input.length := by omega
        have hdd : (dt2.getD k defaultDRow).date = dates1.getD k ⟨1, 1, 1⟩ := by
          rw [← getD_map_date dt2 k hk, hdates]
        have hneedle : (dt2.getD k defaultDRow).date =
            (input1.getD k defaultInRow).date := by
          rw [hdd, hin1 k hkin]
        rw [hneedle, filter_date_eq input1 hnodup_in k (by omega), List.map_cons,
          List.map_nil, hin1 k hkin]
      have hflat : mergeOnDate dt2 input1 = (List.range dt2.length).map
          (fun k => MRow.mk (dates1.getD k ⟨1, 1, 1⟩) ((dt2.getD k defaultDRow).slots)
            ((input1.getD k defaultInRow).vals)) := by
        unfold mergeOnDate
        exact flatten_map_singleton dt2 _ _ hmerge
      rw [← hout, hflat]
      constructor
      · rw [List.length_map, List.length_range]
        exact hlen2
      · intro k hk
        have hgetd : ((List.range dt2.length).map
            (fun k => MRow.mk (dates1.getD k ⟨1, 1, 1⟩) ((dt2.getD k defaultDRow).slots)
              ((input1.getD k defaultInRow).vals))).getD k defaultMRow =
            MRow.mk (dates1.getD k ⟨1, 1, 1⟩) ((dt2.getD k defaultDRow).slots)
              ((input1.getD k defaultInRow).vals) := by
          rw [List.getD_eq_getElem?_getD,
            List.getElem?_eq_getElem (by rw [List.length_map, List.length_range]; omega),
            List.getElem_map, List.getElem_range]
          rfl
        rw [hgetd]
        exact ⟨by rw [hin1 k hk], rfl⟩

/-- Witness for C10 amended at the two-month input. -/
theorem C10_amended_witness :
    ((normalizeDates (inputTwoMonths.map InRow.date)).map Date.key).Nodup ∧
      ((((prepare_inputs inputTwoMonths).map Prod.fst).getD []).length =
          inputTwoMonths.length
      ∧ ∀ k, k < inputTwoMonths.length →
          ((((prepare_inputs inputTwoMonths).map Prod.fst).getD []).getD k
              defaultMRow).vals = (inputTwoMonths.getD k defaultInRow).vals
          ∧ ((((prepare_inputs inputTwoMonths).map Prod.fst).getD []).getD k
              defaultMRow).date =
            (normalizeDates (inputTwoMonths.map InRow.date)).getD k ⟨1, 1, 1⟩) :=
  ⟨by decide,
    C10_amended inputTwoMonths (((prepare_inputs inputTwoMonths).map Prod.fst).getD [])
      true (some (inputTwoMonths.map InRow.date)) (by decide) (by decide)⟩

end FCIG
